import Mathlib

/-!
# Verification of the distributed order book core

A shallow embedding of `src/core/Heap.js`, `src/core/enums.js` and
`src/core/OrderBook.js`, together with proofs about the matching engine,
the heap invariants, validation, snapshots and the hook/event surface.

Numbers: JS numbers are embedded as `ℚ`; the `toFixed`-based rounding
`#round(value, decimals)` is embedded as round-to-nearest, half away from
zero, at the given decimal count (the numeric semantics stated in spec
§4.3 for the reference implementation).  `null` prices are `Option.none`;
JS coerces `null` to `0` in arithmetic comparisons, embedded by `pv`.
-/

namespace OB

open scoped List

/-- `OrderSide` from `enums.js`. -/
inductive Side
  | buy
  | sell
deriving DecidableEq, Inhabited

/-- `OrderType` from `enums.js`. -/
inductive OType
  | limit
  | market
deriving DecidableEq, Inhabited

/-- `OrderStatus` from `enums.js` (`open` is a Lean keyword, hence `open_`). -/
inductive Status
  | open_
  | filled
  | partiallyFilled
  | cancelled
deriving DecidableEq, Inhabited

/-- A normalised order as stored by the book (the record built in
`addOrder`, `OrderBook.js` lines 78-89). -/
structure Order where
  id : String
  side : Side
  type : OType
  price : Option ℚ
  quantity : ℚ
  peerId : Option String
  timestamp : ℤ
  status : Status
deriving DecidableEq, Inhabited

/-- A trade record (`OrderBook.js` lines 224-234). -/
structure Trade where
  id : String
  pair : String
  price : Option ℚ
  quantity : ℚ
  buyOrderId : String
  sellOrderId : String
  buyPeerId : Option String
  sellPeerId : Option String
  timestamp : ℤ
deriving DecidableEq, Inhabited

/-- Round to `d` decimals, nearest with half away from zero: the embedding of
`#round(value, decimals) = parseFloat(value.toFixed(decimals))`. -/
def rnd (x : ℚ) (d : ℕ) : ℚ :=
  if 0 ≤ x then (⌊x * 10 ^ d + 1 / 2⌋ : ℚ) / 10 ^ d
  else -((⌊-x * 10 ^ d + 1 / 2⌋ : ℚ) / 10 ^ d)

/-- JS numeric coercion of a possibly-`null` price in arithmetic:
`null` behaves as `0`. -/
def pv (p : Option ℚ) : ℚ := p.getD 0

/-- The `BidHeap` comparator (`Heap.js` lines 127-130):
`b.price !== a.price ? b.price - a.price : a.timestamp - b.timestamp`,
used through the test `comparator(a, b) < 0`. -/
def bidLt (a b : Order) : Bool :=
  if a.price = b.price then decide (a.timestamp < b.timestamp)
  else decide (pv b.price < pv a.price)

/-- The `AskHeap` comparator (`Heap.js` lines 140-143). -/
def askLt (a b : Order) : Bool :=
  if a.price = b.price then decide (a.timestamp < b.timestamp)
  else decide (pv a.price < pv b.price)

/-! ## The binary heap (`Heap.js`), on a flat list -/

/-- Parent index: `Math.floor((i - 1) / 2)`. -/
def par (i : ℕ) : ℕ := (i - 1) / 2

/-- Total indexing into the heap array. -/
def gOrd (l : List Order) (i : ℕ) : Order := l.getD i default

/-- `#swap(i, j)` (`Heap.js` line 117). -/
def hswap (l : List Order) (i j : ℕ) : List Order :=
  (l.set i (gOrd l j)).set j (gOrd l i)

/-- `#bubbleUp(idx)` (`Heap.js` lines 88-97). -/
def bubbleUp (lt : Order → Order → Bool) (l : List Order) (i : ℕ) : List Order :=
  if h : i = 0 then l
  else if lt (gOrd l i) (gOrd l (par i)) then
    bubbleUp lt (hswap l i (par i)) (par i)
  else l
termination_by i
decreasing_by
  exact Nat.div_lt_of_lt_mul
    (by omega)

/-- The index the current node would move to in one `#bubbleDown` step:
the smallest (w.r.t. the comparator) of the node and its in-range children
(`Heap.js` lines 102-107). -/
def dnTarget1 (lt : Order → Order → Bool) (l : List Order) (i : ℕ) : ℕ :=
  if 2 * i + 1 < l.length ∧ lt (gOrd l (2 * i + 1)) (gOrd l i) then 2 * i + 1 else i

def dnTarget (lt : Order → Order → Bool) (l : List Order) (i : ℕ) : ℕ :=
  if 2 * i + 2 < l.length ∧ lt (gOrd l (2 * i + 2)) (gOrd l (dnTarget1 lt l i)) then 2 * i + 2
  else dnTarget1 lt l i

theorem dnTarget_lt_length (lt : Order → Order → Bool) (l : List Order) (i : ℕ)
    (h : dnTarget lt l i ≠ i) : i < dnTarget lt l i ∧ dnTarget lt l i < l.length := by
  by_cases h2 : 2 * i + 2 < l.length ∧ lt (gOrd l (2 * i + 2)) (gOrd l (dnTarget1 lt l i)) = true
  · simp only [dnTarget, if_pos h2]
    exact ⟨by omega, h2.1⟩
  · simp only [dnTarget, if_neg h2] at h ⊢
    by_cases h1 : 2 * i + 1 < l.length ∧ lt (gOrd l (2 * i + 1)) (gOrd l i) = true
    · simp only [dnTarget1, if_pos h1]
      exact ⟨by omega, h1.1⟩
    · simp only [dnTarget1, if_neg h1] at h
      exact absurd rfl h

/-- `#bubbleDown(idx)` (`Heap.js` lines 99-114). -/
def bubbleDown (lt : Order → Order → Bool) (l : List Order) (i : ℕ) : List Order :=
  if h : dnTarget lt l i = i then l
  else bubbleDown lt (hswap l i (dnTarget lt l i)) (dnTarget lt l i)
termination_by l.length - i
decreasing_by
  have hd := dnTarget_lt_length lt l i h
  have hlen : (hswap l i (dnTarget lt l i)).length = l.length := by
    simp [hswap, gOrd]
  omega

/-- `insert(item)` (`Heap.js` lines 44-47): append, then bubble up from the
last index. -/
def hinsert (lt : Order → Order → Bool) (l : List Order) (x : Order) : List Order :=
  bubbleUp lt (l ++ [x]) l.length

/-- `extractTop()` (`Heap.js` lines 50-59): returns the removed top and the
new heap array. -/
def extractTop (lt : Order → Order → Bool) (l : List Order) : Option Order × List Order :=
  match l with
  | [] => (none, [])
  | x :: _ =>
    let l' := l.dropLast
    if l'.isEmpty then (some x, [])
    else (some x, bubbleDown lt (l'.set 0 (l.getLast?.getD default)) 0)

/-- `removeById(id)` (`Heap.js` lines 62-75). -/
def removeById (lt : Order → Order → Bool) (idv : String) (l : List Order) :
    Option Order × List Order :=
  match l.findIdx? (fun o => o.id == idv) with
  | none => (none, l)
  | some idx =>
    let removed := gOrd l idx
    let l' := l.dropLast
    if idx < l'.length then
      (some removed, bubbleDown lt (bubbleUp lt (l'.set idx (l.getLast?.getD default)) idx) idx)
    else (some removed, l')

/-- `updateQuantity(id, newQuantity)` (`Heap.js` lines 78-81): mutate the
first element carrying the id, in place. -/
def updateQuantity (idv : String) (q : ℚ) (l : List Order) : List Order :=
  match l.findIdx? (fun o => o.id == idv) with
  | none => l
  | some idx => l.set idx { gOrd l idx with quantity := q }

/-! ## The order book (`OrderBook.js`) -/

/-- The book state: pair, precisions, the two heap arrays, the trade log.
Hooks are not part of the state; hook invocations are reported as the
`List Emit` returned by each operation, in invocation order. -/
structure Book where
  pair : String
  pricePrecision : ℕ
  quantityPrecision : ℕ
  bids : List Order
  asks : List Order
  trades : List Trade
deriving DecidableEq, Inhabited

deriving instance DecidableEq for Except

/-- A recorded hook invocation.  `logAtEmit` is the content of the book's
trade log at the moment the hook fires — what a hook reading `getTrades()`
would observe. -/
inductive Emit
  | trade (t : Trade) (logAtEmit : List Trade)
  | orderAdded (o : Order) (logAtEmit : List Trade)
  | orderRemoved (o : Order) (logAtEmit : List Trade)
deriving DecidableEq, Inhabited

def Emit.logAtEmit : Emit → List Trade
  | .trade _ lg => lg
  | .orderAdded _ lg => lg
  | .orderRemoved _ lg => lg

def Emit.isOrderRemoved : Emit → Bool
  | .orderRemoved _ _ => true
  | _ => false

/-- The raw argument of `addOrder` before validation.  JS values that are
neither `'buy'` nor `'sell'` (including a missing side) are `RawSide.invalid`;
a falsy `type` is `RawType.absent`, a non-enum one `RawType.invalid`. -/
inductive RawSide
  | buy
  | sell
  | invalid
deriving DecidableEq, Inhabited

inductive RawType
  | absent
  | limit
  | market
  | invalid
deriving DecidableEq, Inhabited

structure RawOrder where
  id : Option String
  side : RawSide
  type : RawType
  price : Option ℚ
  quantity : Option ℚ
  peerId : Option String
  timestamp : Option ℤ
  remote : Bool
deriving DecidableEq, Inhabited

/-- `#validateOrder` (`OrderBook.js` lines 265-280), returning the message of
the error thrown, or `none` when validation passes.  `!order.id` is true for
a missing or empty id; `!order.quantity` for a missing or zero quantity. -/
def validateErr (o : RawOrder) : Option String :=
  if o.id = none ∨ o.id = some "" then some "Order must have an id"
  else if o.side = RawSide.invalid then some "Order side must be one of: buy, sell"
  else if o.type = RawType.invalid then some "Order type must be one of: limit, market"
  else if o.type ≠ RawType.market ∧ (o.price = none ∨ o.price.getD 0 ≤ 0) then
    some "Limit order must have a positive price"
  else if o.quantity = none ∨ o.quantity.getD 0 ≤ 0 then
    some "Order quantity must be positive"
  else none

/-- Post-validation side (validation guarantees `o.side ≠ invalid`). -/
def normSide : RawSide → Side
  | RawSide.buy => Side.buy
  | RawSide.sell => Side.sell
  | RawSide.invalid => Side.buy

/-- The `normalised` record of `addOrder` (`OrderBook.js` lines 78-89).
`order.timestamp || Date.now()` treats a `0` timestamp as absent;
`order.peerId || null` turns an empty peer id into `null`. -/
def normalise (b : Book) (o : RawOrder) (now : ℤ) : Order :=
  { id := o.id.getD ""
    side := normSide o.side
    type := if o.type = RawType.market then OType.market else OType.limit
    price := if o.type = RawType.market then none
             else some (rnd (o.price.getD 0) b.pricePrecision)
    quantity := rnd (o.quantity.getD 0) b.quantityPrecision
    peerId := if o.peerId = some "" then none else o.peerId
    timestamp := match o.timestamp with
      | some t => if t = 0 then now else t
      | none => now
    status := Status.open_ }

/-! ### The matching state machine (`#match`, `OrderBook.js` lines 202-251) -/

structure MSt where
  rem : Order
  opp : List Order
  trades : List Trade
  evs : List Emit
deriving DecidableEq, Inhabited

/-- The `while` guard: `remainder.quantity > 0 && !opposingHeap.isEmpty`. -/
def matchCond (st : MSt) : Bool :=
  decide (0 < st.rem.quantity) && !st.opp.isEmpty

/-- The `priceMatches` cross check (`OrderBook.js` lines 213-217); `null`
prices coerce to `0` in the JS comparisons. -/
def priceOK (rem best : Order) : Bool :=
  match rem.type with
  | OType.market => true
  | OType.limit =>
    match rem.side with
    | Side.buy => decide (pv best.price ≤ pv rem.price)
    | Side.sell => decide (pv rem.price ≤ pv best.price)

/-- The trade record built at `OrderBook.js` lines 224-234. -/
def mkTrade (pair : String) (now : ℤ) (rem best : Order) (tq : ℚ) : Trade :=
  { id := rem.id ++ "_" ++ best.id ++ "_" ++ toString now
    pair := pair
    price := best.price
    quantity := tq
    buyOrderId := if rem.side = Side.buy then rem.id else best.id
    sellOrderId := if rem.side = Side.sell then rem.id else best.id
    buyPeerId := if rem.side = Side.buy then rem.peerId else best.peerId
    sellPeerId := if rem.side = Side.sell then rem.peerId else best.peerId
    timestamp := now }

/-- One iteration of the matching loop body (`OrderBook.js` lines 211-247).
The in-place mutation `best.quantity = round(...)` aliases the heap root, so
the root is rewritten before the fully-consumed check; `updateQuantity` then
finds that same root (index 0) by id.  `OrderRemoved` hooks fire here, while
the trade log still holds only `oldLog`. -/
def matchStep (lt : Order → Order → Bool) (pair : String) (qPrec : ℕ) (now : ℤ)
    (oldLog : List Trade) (st : MSt) : MSt :=
  let best := gOrd st.opp 0
  let tq := rnd (min st.rem.quantity best.quantity) qPrec
  let tr := mkTrade pair now st.rem best tq
  let newRemQ := rnd (st.rem.quantity - tq) qPrec
  let newBestQ := rnd (best.quantity - tq) qPrec
  if newBestQ = 0 then
    { rem := { st.rem with quantity := newRemQ }
      opp := (extractTop lt (st.opp.set 0 { best with quantity := newBestQ })).2
      trades := st.trades ++ [tr]
      evs := st.evs ++ [Emit.orderRemoved { best with quantity := newBestQ } oldLog] }
  else
    { rem := { st.rem with quantity := newRemQ }
      opp := updateQuantity best.id newBestQ st.opp
      trades := st.trades ++ [tr]
      evs := st.evs }

/-- The matching loop, with explicit fuel.  `addOrder` runs it with fuel
`opposing.length + 1`, which is shown sufficient for well-formed books
(`matchLoop_exit`): each iteration either extracts a fully consumed resting
order or zeroes the aggressor's remainder. -/
def matchLoop (lt : Order → Order → Bool) (pair : String) (qPrec : ℕ) (now : ℤ)
    (oldLog : List Trade) : ℕ → MSt → MSt
  | 0, st => st
  | fuel + 1, st =>
    if matchCond st && priceOK st.rem (gOrd st.opp 0) then
      matchLoop lt pair qPrec now oldLog fuel (matchStep lt pair qPrec now oldLog st)
    else st

def oppOf (b : Book) : Side → List Order
  | Side.buy => b.asks
  | Side.sell => b.bids

def oppLtOf : Side → Order → Order → Bool
  | Side.buy => askLt
  | Side.sell => bidLt

/-- The return value of `addOrder`. -/
structure AddResult where
  trades : List Trade
  remainder : Option Order
  status : Status
deriving DecidableEq, Inhabited

/-- The matching run performed by a validated `addOrder` call: the `#match`
loop against the opposing heap, started on the normalised order. -/
def runMatch (o : RawOrder) (now : ℤ) (b : Book) : MSt :=
  matchLoop (oppLtOf (normalise b o now).side) b.pair b.quantityPrecision now b.trades
    ((oppOf b (normalise b o now).side).length + 1)
    { rem := normalise b o now, opp := oppOf b (normalise b o now).side,
      trades := [], evs := [] }

/-- The body of `addOrder` after validation has passed
(`OrderBook.js` lines 78-121). -/
def addOrderValid (o : RawOrder) (now : ℤ) (b : Book) :
    Except String AddResult × Book × List Emit :=
  let norm := normalise b o now
  let st := runMatch o now b
  let newLog := b.trades ++ st.trades
  let evs1 := st.evs ++ st.trades.map (fun t => Emit.trade t newLog)
  let b1 : Book :=
    match norm.side with
    | Side.buy => { b with asks := st.opp, trades := newLog }
    | Side.sell => { b with bids := st.opp, trades := newLog }
  if 0 < st.rem.quantity then
    let rem' := { st.rem with
      status := if 0 < st.trades.length then Status.partiallyFilled else Status.open_ }
    if rem'.type = OType.limit then
      let b2 : Book :=
        match norm.side with
        | Side.buy => { b1 with bids := hinsert bidLt b1.bids rem' }
        | Side.sell => { b1 with asks := hinsert askLt b1.asks rem' }
      (Except.ok { trades := st.trades, remainder := some rem', status := rem'.status },
        b2, evs1 ++ [Emit.orderAdded rem' newLog])
    else
      (Except.ok { trades := st.trades, remainder := some rem', status := rem'.status },
        b1, evs1)
  else
    (Except.ok { trades := st.trades, remainder := none, status := Status.filled },
      b1, evs1)

/-- `addOrder(order)` (`OrderBook.js` lines 75-122).  A thrown validation
error is the `.error` case; the book is then untouched and no hook fired.
Trades are pushed to the log before the `Trade` hooks fire; the residual
remainder rests (and `OrderAdded` fires) only for limit orders. -/
def addOrder (o : RawOrder) (now : ℤ) (b : Book) :
    Except String AddResult × Book × List Emit :=
  match validateErr o with
  | some msg => (Except.error msg, b, [])
  | none => addOrderValid o now b

/-- `applyRemoteOrder(order)` (`OrderBook.js` lines 146-148):
`addOrder({ ...order, remote: true })`. -/
def applyRemoteOrder (o : RawOrder) (now : ℤ) (b : Book) :
    Except String AddResult × Book × List Emit :=
  addOrder { o with remote := true } now b

/-- `cancelOrder(orderId)` (`OrderBook.js` lines 129-139): bids first, then
asks; the removed order gets status `cancelled` and `OrderRemoved` fires. -/
def cancelOrder (idv : String) (b : Book) : Option Order × Book × List Emit :=
  match removeById bidLt idv b.bids with
  | (some o, bids') =>
    let o' := { o with status := Status.cancelled }
    (some o', { b with bids := bids' }, [Emit.orderRemoved o' b.trades])
  | (none, _) =>
    match removeById askLt idv b.asks with
    | (some o, asks') =>
      let o' := { o with status := Status.cancelled }
      (some o', { b with asks := asks' }, [Emit.orderRemoved o' b.trades])
    | (none, _) => (none, b, [])

/-- `bestBid()` — `peek()`, i.e. `data[0] ?? null`. -/
def bestBid (b : Book) : Option Order := b.bids.head?

def bestAsk (b : Book) : Option Order := b.asks.head?

/-- `spread()` (`OrderBook.js` lines 191-194). -/
def spread (b : Book) : Option ℚ :=
  match bestBid b, bestAsk b with
  | some bb, some aa => some (rnd (pv aa.price - pv bb.price) b.pricePrecision)
  | _, _ => none

structure Snapshot where
  pair : String
  timestamp : ℤ
  bids : List Order
  asks : List Order
  bestBid : Option Order
  bestAsk : Option Order
  spread : Option ℚ
deriving DecidableEq, Inhabited

/-- `getSnapshot()` (`OrderBook.js` lines 155-165); `toArray` copies are
plain values here. -/
def getSnapshot (now : ℤ) (b : Book) : Snapshot :=
  { pair := b.pair
    timestamp := now
    bids := b.bids
    asks := b.asks
    bestBid := bestBid b
    bestAsk := bestAsk b
    spread := spread b }

/-- Heap rebuild on snapshot load: insert every array element into a fresh
heap, in array order. -/
def rebuild (lt : Order → Order → Bool) (l : List Order) : List Order :=
  l.foldl (hinsert lt) []

/-- `loadSnapshot(snapshot)` (`OrderBook.js` lines 171-180).  The trade log
is not touched. -/
def loadSnapshot (snap : Snapshot) (b : Book) : Except String Book :=
  if snap.pair ≠ b.pair then
    Except.error ("Pair mismatch: expected " ++ b.pair ++ ", got " ++ snap.pair)
  else
    Except.ok { b with bids := rebuild bidLt snap.bids, asks := rebuild askLt snap.asks }

/-- A freshly constructed book (`new OrderBook(pair, options)`). -/
def Book.fresh (pair : String) (pPrec qPrec : ℕ) : Book :=
  { pair := pair, pricePrecision := pPrec, quantityPrecision := qPrec,
    bids := [], asks := [], trades := [] }

/-! ## Basic lemmas: indexing, swaps, permutations -/

theorem gOrd_eq_getElem (l : List Order) (i : ℕ) (h : i < l.length) :
    gOrd l i = l[i] := by
  simp [gOrd, List.getD_eq_getElem?_getD, List.getElem?_eq_getElem h]

theorem gOrd_cons_succ (a : Order) (t : List Order) (i : ℕ) :
    gOrd (a :: t) (i + 1) = gOrd t i := by
  simp [gOrd]

theorem gOrd_cons_zero (a : Order) (t : List Order) : gOrd (a :: t) 0 = a := rfl

theorem hswap_length (l : List Order) (i j : ℕ) : (hswap l i j).length = l.length := by
  simp [hswap]

/-- Replacing the `j`-th entry by `a` and re-consing the old entry is a
permutation of consing `a`. -/
theorem cons_set_perm (t : List Order) (a : Order) (j : ℕ) (hj : j < t.length) :
    gOrd t j :: t.set j a ~ a :: t := by
  induction t generalizing j with
  | nil => simp at hj
  | cons b s ihs =>
    match j with
    | 0 => simpa [gOrd] using List.Perm.swap a b s
    | j + 1 =>
      have hj' : j < s.length := by simpa using hj
      rw [gOrd_cons_succ]
      show gOrd s j :: b :: s.set j a ~ a :: b :: s
      calc gOrd s j :: b :: s.set j a
          ~ b :: gOrd s j :: s.set j a := List.Perm.swap b (gOrd s j) _
        _ ~ b :: (a :: s) := (List.perm_cons b).2 (ihs j hj')
        _ ~ a :: b :: s := List.Perm.swap a b s

/-- Swapping two in-range entries is a permutation. -/
theorem hswap_perm (l : List Order) (i j : ℕ) (hi : i < l.length) (hj : j < l.length) :
    hswap l i j ~ l := by
  induction l generalizing i j with
  | nil => simp at hi
  | cons a t ih =>
    match i, j with
    | 0, 0 =>
      simp [hswap, gOrd]
    | 0, j + 1 =>
      have hj' : j < t.length := by simpa using hj
      show ((a :: t).set 0 (gOrd (a :: t) (j + 1))).set (j + 1) (gOrd (a :: t) 0) ~ a :: t
      rw [gOrd_cons_succ, gOrd_cons_zero]
      show gOrd t j :: t.set j a ~ a :: t
      exact cons_set_perm t a j hj'
    | i + 1, 0 =>
      have hi' : i < t.length := by simpa using hi
      show ((a :: t).set (i + 1) (gOrd (a :: t) 0)).set 0 (gOrd (a :: t) (i + 1)) ~ a :: t
      rw [gOrd_cons_succ, gOrd_cons_zero]
      show gOrd t i :: t.set i a ~ a :: t
      exact cons_set_perm t a i hi'
    | i + 1, j + 1 =>
      have hi' : i < t.length := by simpa using hi
      have hj' : j < t.length := by simpa using hj
      have he : hswap (a :: t) (i + 1) (j + 1) = a :: hswap t i j := by
        simp [hswap, gOrd]
      rw [he]
      exact (List.perm_cons a).2 (ih i j hi' hj')

theorem bubbleUp_perm (lt : Order → Order → Bool) (l : List Order) (i : ℕ)
    (hi : i < l.length) : bubbleUp lt l i ~ l := by
  induction i using Nat.strong_induction_on generalizing l with
  | _ i ih =>
    unfold bubbleUp
    by_cases h0 : i = 0
    · simp [h0]
    · rw [dif_neg h0]
      by_cases hlt : lt (gOrd l i) (gOrd l (par i)) = true
      · rw [if_pos hlt]
        have hpar : par i < i := by
          have : 0 < i := Nat.pos_of_ne_zero h0
          simp only [par]
          omega
        have hswl : (hswap l i (par i)).length = l.length := hswap_length l i (par i)
        exact (ih (par i) hpar (hswap l i (par i)) (by omega)).trans
          (hswap_perm l i (par i) hi (by omega))
      · rw [if_neg hlt]

theorem bubbleUp_length (lt : Order → Order → Bool) (l : List Order) (i : ℕ)
    (hi : i < l.length) : (bubbleUp lt l i).length = l.length :=
  (bubbleUp_perm lt l i hi).length_eq

theorem bubbleDown_perm (lt : Order → Order → Bool) (l : List Order) (i : ℕ) :
    bubbleDown lt l i ~ l := by
  induction l, i using bubbleDown.induct lt with
  | case1 l i h => rw [bubbleDown, dif_pos h]
  | case2 l i h ih =>
    rw [bubbleDown, dif_neg h]
    have hd := dnTarget_lt_length lt l i h
    exact ih.trans (hswap_perm l i (dnTarget lt l i) (by omega) hd.2)

theorem bubbleDown_length (lt : Order → Order → Bool) (l : List Order) (i : ℕ) :
    (bubbleDown lt l i).length = l.length :=
  (bubbleDown_perm lt l i).length_eq

theorem hinsert_perm (lt : Order → Order → Bool) (l : List Order) (x : Order) :
    hinsert lt l x ~ x :: l := by
  have h1 : bubbleUp lt (l ++ [x]) l.length ~ l ++ [x] :=
    bubbleUp_perm lt (l ++ [x]) l.length (by simp)
  exact h1.trans (List.perm_append_singleton x l)

/-- Moving the last entry into a removed slot, a permutation with the removed
entry put back on top. -/
theorem fill_hole_perm (l : List Order) (idx : ℕ) (h : idx + 1 < l.length) :
    gOrd l idx :: l.dropLast.set idx (l.getLast?.getD default) ~ l := by
  induction l generalizing idx with
  | nil => simp at h
  | cons a t ih =>
    have ht : t ≠ [] := by
      intro he
      rw [he] at h
      simp at h
    have hlast : (a :: t).getLast?.getD default = t.getLast?.getD default := by
      cases t with
      | nil => exact absurd rfl ht
      | cons b s => simp [List.getLast?]
    have hdrop : (a :: t).dropLast = a :: t.dropLast := by
      cases t with
      | nil => exact absurd rfl ht
      | cons b s => rfl
    match idx with
    | 0 =>
      rw [gOrd_cons_zero, hlast, hdrop]
      show a :: (a :: t.dropLast).set 0 (t.getLast?.getD default) ~ a :: t
      refine (List.perm_cons a).2 ?_
      show t.getLast?.getD default :: t.dropLast ~ t
      have hg : t.getLast?.getD default = t.getLast ht := by
        rw [List.getLast?_eq_getLast_of_ne_nil ht]
        rfl
      rw [hg]
      calc t.getLast ht :: t.dropLast
          ~ t.dropLast ++ [t.getLast ht] := (List.perm_append_singleton _ _).symm
        _ = t := List.dropLast_append_getLast ht
    | idx + 1 =>
      have h' : idx + 1 < t.length := by simpa using h
      rw [gOrd_cons_succ, hlast, hdrop]
      show gOrd t idx :: (a :: t.dropLast.set idx (t.getLast?.getD default)) ~ a :: t
      calc gOrd t idx :: a :: t.dropLast.set idx (t.getLast?.getD default)
          ~ a :: gOrd t idx :: t.dropLast.set idx (t.getLast?.getD default) :=
            List.Perm.swap a (gOrd t idx) _
        _ ~ a :: t := (List.perm_cons a).2 (ih idx h')

/-- The element removed from the very end (the `idx = length - 1` case of
`removeById`). -/
theorem last_dropLast_perm (l : List Order) (h : l ≠ []) :
    gOrd l (l.length - 1) :: l.dropLast ~ l := by
  have hg : gOrd l (l.length - 1) = l.getLast h := by
    rw [gOrd_eq_getElem l (l.length - 1) (by
      cases l with
      | nil => exact absurd rfl h
      | cons a t => simp)]
    exact (List.getLast_eq_getElem l h).symm
  rw [hg]
  calc l.getLast h :: l.dropLast
      ~ l.dropLast ++ [l.getLast h] := (List.perm_append_singleton _ _).symm
    _ = l := List.dropLast_append_getLast h

theorem extractTop_fst (lt : Order → Order → Bool) (l : List Order) (h : l ≠ []) :
    (extractTop lt l).1 = some (gOrd l 0) := by
  cases l with
  | nil => exact absurd rfl h
  | cons x t =>
    show (extractTop lt (x :: t)).1 = some x
    unfold extractTop
    by_cases ht : ((x :: t).dropLast).isEmpty <;> simp [ht]

theorem extractTop_perm (lt : Order → Order → Bool) (l : List Order) (h : l ≠ []) :
    (extractTop lt l).2 ~ l.tail := by
  cases l with
  | nil => exact absurd rfl h
  | cons x t =>
    unfold extractTop
    by_cases ht : t = []
    · subst ht
      simp
    · have hne : ¬ ((x :: t).dropLast).isEmpty = true := by
        cases t with
        | nil => exact absurd rfl ht
        | cons b s => simp [List.dropLast]
      simp only [hne, if_neg, Bool.false_eq_true, if_false]
      show bubbleDown lt (((x :: t).dropLast).set 0 ((x :: t).getLast?.getD default)) 0 ~ t
      refine (bubbleDown_perm lt _ 0).trans ?_
      have hdrop : (x :: t).dropLast = x :: t.dropLast := by
        cases t with
        | nil => exact absurd rfl ht
        | cons b s => rfl
      have hlast : (x :: t).getLast?.getD default = t.getLast ht := by
        cases t with
        | nil => exact absurd rfl ht
        | cons b s =>
          rw [show (x :: b :: s).getLast? = (b :: s).getLast? from by simp [List.getLast?],
            List.getLast?_eq_getLast_of_ne_nil ht]
          rfl
      rw [hdrop, hlast]
      show t.getLast ht :: t.dropLast ~ t
      calc t.getLast ht :: t.dropLast
          ~ t.dropLast ++ [t.getLast ht] := (List.perm_append_singleton _ _).symm
        _ = t := List.dropLast_append_getLast ht

theorem removeById_eq_of_found (lt : Order → Order → Bool) (idv : String) (l : List Order)
    (idx : ℕ) (hf : l.findIdx? (fun o => o.id == idv) = some idx) :
    removeById lt idv l =
      if idx < l.dropLast.length then
        (some (gOrd l idx),
          bubbleDown lt (bubbleUp lt (l.dropLast.set idx (l.getLast?.getD default)) idx) idx)
      else (some (gOrd l idx), l.dropLast) := by
  unfold removeById
  rw [hf]

theorem removeById_none (lt : Order → Order → Bool) (idv : String) (l : List Order)
    (h : (removeById lt idv l).1 = none) : (removeById lt idv l).2 = l := by
  cases hf : l.findIdx? (fun o => o.id == idv) with
  | none => simp [removeById, hf]
  | some idx =>
    rw [removeById_eq_of_found lt idv l idx hf] at h
    split at h <;> simp at h

theorem removeById_some_perm (lt : Order → Order → Bool) (idv : String) (l : List Order)
    (o : Order) (h : (removeById lt idv l).1 = some o) :
    o :: (removeById lt idv l).2 ~ l := by
  cases hf : l.findIdx? (fun o => o.id == idv) with
  | none => rw [removeById, hf] at h; simp at h
  | some idx =>
    have hidx : idx < l.length := by
      rcases List.findIdx?_eq_some_iff_getElem.1 hf with ⟨hlen, _, _⟩
      exact hlen
    have hlne : l ≠ [] := by
      intro he
      rw [he] at hidx
      simp at hidx
    have hdl : l.dropLast.length = l.length - 1 := by simp
    rw [removeById_eq_of_found lt idv l idx hf] at h ⊢
    by_cases hcase : idx < l.dropLast.length
    · simp only [hcase, if_pos] at h ⊢
      have ho : o = gOrd l idx := by simpa using h.symm
      subst ho
      refine List.Perm.trans ?_ (fill_hole_perm l idx (by omega))
      refine (List.perm_cons _).2 ?_
      refine (bubbleDown_perm lt _ idx).trans ?_
      exact bubbleUp_perm lt _ idx (by simp; omega)
    · simp only [hcase, if_neg, Bool.false_eq_true, if_false] at h ⊢
      have ho : o = gOrd l idx := by simpa using h.symm
      have hie : idx = l.length - 1 := by omega
      subst ho
      rw [hie]
      exact last_dropLast_perm l hlne

/-- `{ o with quantity := q }`, the mutation done by `updateQuantity` and by
the aliased `best.quantity = ...` write in the matching loop. -/
def qtySet (o : Order) (q : ℚ) : Order := { o with quantity := q }

theorem qtySet_self (o : Order) : qtySet o o.quantity = o := rfl

theorem updateQuantity_mem (idv : String) (q : ℚ) (l : List Order) (x : Order)
    (h : x ∈ updateQuantity idv q l) : x ∈ l ∨ ∃ y ∈ l, x = qtySet y q := by
  unfold updateQuantity at h
  cases hf : l.findIdx? (fun o => o.id == idv) with
  | none => rw [hf] at h; exact Or.inl h
  | some idx =>
    rw [hf] at h
    rcases List.mem_or_eq_of_mem_set h with hmem | heq
    · exact Or.inl hmem
    · refine Or.inr ⟨gOrd l idx, ?_, heq⟩
      rcases List.findIdx?_eq_some_iff_getElem.1 hf with ⟨hlen, _, _⟩
      rw [gOrd_eq_getElem l idx hlen]
      exact List.getElem_mem hlen

/-! ## Structural lemmas about the matching loop -/

theorem matchLoop_stop (lt : Order → Order → Bool) (pair : String) (qPrec : ℕ) (now : ℤ)
    (oldLog : List Trade) (fuel : ℕ) (st : MSt)
    (h : (matchCond st && priceOK st.rem (gOrd st.opp 0)) = false) :
    matchLoop lt pair qPrec now oldLog fuel st = st := by
  cases fuel with
  | zero => rfl
  | succ n => simp [matchLoop, h]

theorem matchStep_rem (lt : Order → Order → Bool) (pair : String) (qPrec : ℕ) (now : ℤ)
    (oldLog : List Trade) (st : MSt) :
    ∃ q, (matchStep lt pair qPrec now oldLog st).rem = qtySet st.rem q := by
  unfold matchStep
  by_cases h : rnd ((gOrd st.opp 0).quantity - rnd (min st.rem.quantity (gOrd st.opp 0).quantity) qPrec) qPrec = 0 <;>
    simp [h, qtySet]

theorem matchLoop_rem (lt : Order → Order → Bool) (pair : String) (qPrec : ℕ) (now : ℤ)
    (oldLog : List Trade) (fuel : ℕ) (st : MSt) :
    ∃ q, (matchLoop lt pair qPrec now oldLog fuel st).rem = qtySet st.rem q := by
  induction fuel generalizing st with
  | zero => exact ⟨st.rem.quantity, (qtySet_self st.rem).symm⟩
  | succ n ih =>
    unfold matchLoop
    by_cases h : (matchCond st && priceOK st.rem (gOrd st.opp 0)) = true
    · rw [if_pos h]
      rcases matchStep_rem lt pair qPrec now oldLog st with ⟨q1, hq1⟩
      rcases ih (matchStep lt pair qPrec now oldLog st) with ⟨q2, hq2⟩
      exact ⟨q2, by rw [hq2, hq1]; rfl⟩
    · rw [if_neg h]
      exact ⟨st.rem.quantity, (qtySet_self st.rem).symm⟩

theorem matchStep_shape (lt : Order → Order → Bool) (pair : String) (qPrec : ℕ)
    (now : ℤ) (oldLog : List Trade) (st : MSt) :
    ∃ tr el, (matchStep lt pair qPrec now oldLog st).trades = st.trades ++ [tr] ∧
      (matchStep lt pair qPrec now oldLog st).evs = st.evs ++ el ∧
      ∀ e ∈ el, ∃ o, e = Emit.orderRemoved o oldLog := by
  unfold matchStep
  by_cases hz : rnd ((gOrd st.opp 0).quantity -
      rnd (min st.rem.quantity (gOrd st.opp 0).quantity) qPrec) qPrec = 0
  · refine ⟨mkTrade pair now st.rem (gOrd st.opp 0)
        (rnd (min st.rem.quantity (gOrd st.opp 0).quantity) qPrec),
      [Emit.orderRemoved { gOrd st.opp 0 with quantity := rnd ((gOrd st.opp 0).quantity -
        rnd (min st.rem.quantity (gOrd st.opp 0).quantity) qPrec) qPrec } oldLog],
      by simp [hz], by simp [hz], ?_⟩
    intro e he
    rcases List.mem_singleton.1 he with rfl
    exact ⟨_, rfl⟩
  · exact ⟨mkTrade pair now st.rem (gOrd st.opp 0)
      (rnd (min st.rem.quantity (gOrd st.opp 0).quantity) qPrec),
      [], by simp [hz], by simp [hz], by simp⟩

theorem matchLoop_trades_evs (lt : Order → Order → Bool) (pair : String) (qPrec : ℕ)
    (now : ℤ) (oldLog : List Trade) (fuel : ℕ) (st : MSt) :
    (∃ tl, (matchLoop lt pair qPrec now oldLog fuel st).trades = st.trades ++ tl) ∧
    (∃ el, (matchLoop lt pair qPrec now oldLog fuel st).evs = st.evs ++ el ∧
      ∀ e ∈ el, ∃ o, e = Emit.orderRemoved o oldLog) := by
  induction fuel generalizing st with
  | zero => exact ⟨⟨[], by simp [matchLoop]⟩, ⟨[], by simp [matchLoop]⟩⟩
  | succ n ih =>
    unfold matchLoop
    by_cases h : (matchCond st && priceOK st.rem (gOrd st.opp 0)) = true
    · rw [if_pos h]
      rcases ih (matchStep lt pair qPrec now oldLog st) with ⟨⟨tl, htl⟩, ⟨el, hel, hall⟩⟩
      rcases matchStep_shape lt pair qPrec now oldLog st with ⟨tr, el0, htr0, hev0, hall0⟩
      constructor
      · exact ⟨[tr] ++ tl, by rw [htl, htr0, List.append_assoc]⟩
      · refine ⟨el0 ++ el, by rw [hel, hev0, List.append_assoc], ?_⟩
        intro e he
        rcases List.mem_append.1 he with he1 | he2
        · exact hall0 e he1
        · exact hall e he2
    · rw [if_neg h]
      exact ⟨⟨[], by simp⟩, ⟨[], by simp⟩⟩

/-- `x` is `y` with only its quantity rewritten: id, price, timestamp, side,
type, status all agree. -/
def sameCore (x y : Order) : Prop := x = qtySet y x.quantity

theorem sameCore_refl (x : Order) : sameCore x x := rfl

theorem sameCore_trans (x y z : Order) (h1 : sameCore x y) (h2 : sameCore y z) :
    sameCore x z := by
  unfold sameCore qtySet at *
  rw [h1, h2]

theorem sameCore_fields (x y : Order) (h : sameCore x y) :
    x.id = y.id ∧ x.price = y.price ∧ x.timestamp = y.timestamp ∧
      x.side = y.side ∧ x.type = y.type ∧ x.status = y.status := by
  rw [show x = qtySet y x.quantity from h]
  exact ⟨rfl, rfl, rfl, rfl, rfl, rfl⟩

theorem matchCond_true (st : MSt) (h : matchCond st = true) :
    0 < st.rem.quantity ∧ st.opp ≠ [] := by
  unfold matchCond at h
  rcases Bool.and_eq_true_iff.1 h with ⟨h1, h2⟩
  refine ⟨by simpa using h1, ?_⟩
  intro he
  rw [he] at h2
  simp at h2

theorem gOrd_zero_mem (l : List Order) (h : l ≠ []) : gOrd l 0 ∈ l := by
  cases l with
  | nil => exact absurd rfl h
  | cons a t => exact List.mem_cons_self a t

theorem tail_set_zero (l : List Order) (v : Order) : (l.set 0 v).tail = l.tail := by
  cases l <;> rfl

theorem extract_set_track (lt : Order → Order → Bool) (l : List Order) (v x : Order)
    (hx : x ∈ (extractTop lt (l.set 0 v)).2) : x ∈ l.tail := by
  by_cases hop : l = []
  · rw [hop] at hx
    simp [extractTop] at hx
  · have hset : l.set 0 v ≠ [] := by
      cases l with
      | nil => exact absurd rfl hop
      | cons a t => simp [List.set]
    have hx2 := (extractTop_perm lt _ hset).mem_iff.1 hx
    rwa [tail_set_zero] at hx2

theorem matchStep_opp_track (lt : Order → Order → Bool) (pair : String) (qPrec : ℕ)
    (now : ℤ) (oldLog : List Trade) (st : MSt) (x : Order)
    (hx : x ∈ (matchStep lt pair qPrec now oldLog st).opp) :
    ∃ y ∈ st.opp, sameCore x y := by
  unfold matchStep at hx
  by_cases hz : rnd ((gOrd st.opp 0).quantity -
      rnd (min st.rem.quantity (gOrd st.opp 0).quantity) qPrec) qPrec = 0
  · simp only [hz, if_pos] at hx
    exact ⟨x, List.mem_of_mem_tail (extract_set_track lt _ _ _ hx), sameCore_refl x⟩
  · simp only [hz, if_neg, Bool.false_eq_true, if_false] at hx
    rcases updateQuantity_mem _ _ _ _ hx with hmem | ⟨y, hy, rfl⟩
    · exact ⟨x, hmem, sameCore_refl x⟩
    · exact ⟨y, hy, rfl⟩

theorem matchLoop_opp_track (lt : Order → Order → Bool) (pair : String) (qPrec : ℕ)
    (now : ℤ) (oldLog : List Trade) (fuel : ℕ) (st : MSt) (x : Order)
    (hx : x ∈ (matchLoop lt pair qPrec now oldLog fuel st).opp) :
    ∃ y ∈ st.opp, sameCore x y := by
  induction fuel generalizing st with
  | zero => exact ⟨x, by simpa [matchLoop] using hx, sameCore_refl x⟩
  | succ n ih =>
    rw [matchLoop] at hx
    by_cases h : (matchCond st && priceOK st.rem (gOrd st.opp 0)) = true
    · rw [if_pos h] at hx
      rcases ih (matchStep lt pair qPrec now oldLog st) hx with ⟨y, hy, hxy⟩
      rcases matchStep_opp_track lt pair qPrec now oldLog st y hy with ⟨z, hz, hyz⟩
      exact ⟨z, hz, sameCore_trans x y z hxy hyz⟩
    · rw [if_neg h] at hx
      exact ⟨x, hx, sameCore_refl x⟩

/-- The resting side of a trade: its sell order when the aggressor bought,
its buy order when the aggressor sold. -/
def restingIdOf (s : Side) (t : Trade) : String :=
  match s with
  | Side.buy => t.sellOrderId
  | Side.sell => t.buyOrderId

theorem mkTrade_resting (pair : String) (now : ℤ) (rem best : Order) (tq : ℚ) :
    restingIdOf rem.side (mkTrade pair now rem best tq) = best.id ∧
      (mkTrade pair now rem best tq).price = best.price := by
  cases hs : rem.side <;> simp [restingIdOf, mkTrade, hs]

theorem matchLoop_trades_track (lt : Order → Order → Bool) (pair : String) (qPrec : ℕ)
    (now : ℤ) (oldLog : List Trade) (fuel : ℕ) (st : MSt) (t : Trade)
    (ht : t ∈ (matchLoop lt pair qPrec now oldLog fuel st).trades) :
    t ∈ st.trades ∨ ∃ y ∈ st.opp, t.price = y.price ∧ y.id = restingIdOf st.rem.side t := by
  induction fuel generalizing st with
  | zero => exact Or.inl (by simpa [matchLoop] using ht)
  | succ n ih =>
    rw [matchLoop] at ht
    by_cases h : (matchCond st && priceOK st.rem (gOrd st.opp 0)) = true
    · rw [if_pos h] at ht
      have hopne : st.opp ≠ [] :=
        (matchCond_true st (Bool.and_eq_true_iff.1 h).1).2
      have hside : (matchStep lt pair qPrec now oldLog st).rem.side = st.rem.side := by
        rcases matchStep_rem lt pair qPrec now oldLog st with ⟨q, hq⟩
        rw [hq]
        rfl
      rcases ih (matchStep lt pair qPrec now oldLog st) ht with hin | ⟨y, hy, hty⟩
      · -- the trade was produced by this very step, or was already there
        rcases matchStep_shape lt pair qPrec now oldLog st with ⟨tr, el, htr, _, _⟩
        rw [htr] at hin
        rcases List.mem_append.1 hin with hold | hnew
        · exact Or.inl hold
        · have hteq := List.mem_singleton.1 hnew
          right
          refine ⟨gOrd st.opp 0, gOrd_zero_mem st.opp hopne, ?_⟩
          have hmk := mkTrade_resting pair now st.rem (gOrd st.opp 0)
            (rnd (min st.rem.quantity (gOrd st.opp 0).quantity) qPrec)
          have htr_eq : tr = mkTrade pair now st.rem (gOrd st.opp 0)
              (rnd (min st.rem.quantity (gOrd st.opp 0).quantity) qPrec) := by
            have h2 : (matchStep lt pair qPrec now oldLog st).trades = st.trades ++ [tr] := htr
            unfold matchStep at h2
            by_cases hz : rnd ((gOrd st.opp 0).quantity -
                rnd (min st.rem.quantity (gOrd st.opp 0).quantity) qPrec) qPrec = 0 <;>
              simp [hz] at h2 <;> exact h2.symm
          rw [hteq, htr_eq]
          exact ⟨hmk.2.symm, hmk.1.symm⟩
      · rcases matchStep_opp_track lt pair qPrec now oldLog st y hy with ⟨z, hz, hyz⟩
        rcases sameCore_fields y z hyz with ⟨hid, hpr, _, _, _, _⟩
        right
        refine ⟨z, hz, ?_, ?_⟩
        · rw [hty.1, hpr]
        · rw [← hid, hty.2, hside]
    · rw [if_neg h] at ht
      exact Or.inl ht

/-! ## Validation and the error surface -/

/-- The validation-failure condition exactly as the specification words it:
missing/empty id, side outside Buy/Sell, a present type outside Limit/Market,
non-positive or absent price while the type is not Market, or a non-positive
(or absent) quantity. -/
def specValidationError (o : RawOrder) : Prop :=
  o.id = none ∨ o.id = some "" ∨ o.side = RawSide.invalid ∨ o.type = RawType.invalid ∨
    (o.type ≠ RawType.market ∧ (o.price = none ∨ o.price.getD 0 ≤ 0)) ∨
    o.quantity = none ∨ o.quantity.getD 0 ≤ 0

theorem validateErr_none_iff (o : RawOrder) :
    validateErr o = none ↔ ¬ specValidationError o := by
  unfold validateErr specValidationError
  split_ifs with h1 h2 h3 h4 h5 <;> simp_all <;> tauto

theorem addOrderValid_isOk (o : RawOrder) (now : ℤ) (b : Book) :
    ∃ r rest, addOrderValid o now b = (Except.ok r, rest) := by
  unfold addOrderValid
  by_cases h1 : 0 < (runMatch o now b).rem.quantity
  · rw [if_pos h1]
    by_cases h2 : ({ (runMatch o now b).rem with
        status := if 0 < (runMatch o now b).trades.length then Status.partiallyFilled
          else Status.open_ } : Order).type = OType.limit
    · rw [if_pos h2]
      exact ⟨_, _, rfl⟩
    · rw [if_neg h2]
      exact ⟨_, _, rfl⟩
  · rw [if_neg h1]
    exact ⟨_, _, rfl⟩

theorem addOrder_ok_elim (o : RawOrder) (now : ℤ) (b : Book) (r : AddResult) (b' : Book)
    (evs : List Emit) (h : addOrder o now b = (Except.ok r, b', evs)) :
    validateErr o = none ∧ addOrderValid o now b = (Except.ok r, b', evs) := by
  unfold addOrder at h
  cases hv : validateErr o with
  | none => rw [hv] at h; exact ⟨rfl, h⟩
  | some msg =>
    rw [hv] at h
    exact absurd (congrArg (fun p => p.1) h) (by simp)

/-- **C8.** `add_order` raises a validation error exactly on the inputs the
specification lists, and on a raised error the book is unchanged and no hook
fires: the error outcome is `(error msg, b, [])` with the original book `b`
and an empty emission list. -/
theorem claim_C8 (o : RawOrder) (now : ℤ) (b : Book) :
    (∃ msg, addOrder o now b = (Except.error msg, b, [])) ↔ specValidationError o := by
  constructor
  · rintro ⟨msg, h⟩
    by_contra hns
    have hv : validateErr o = none := (validateErr_none_iff o).2 hns
    unfold addOrder at h
    rw [hv] at h
    rcases addOrderValid_isOk o now b with ⟨r, rest, hok⟩
    rw [hok] at h
    have := congrArg (fun p => p.1) h
    simp at this
  · intro hs
    have hv : validateErr o ≠ none := by
      intro hc
      exact (validateErr_none_iff o).1 hc hs
    cases hvv : validateErr o with
    | none => exact absurd hvv hv
    | some msg =>
      refine ⟨msg, ?_⟩
      unfold addOrder
      rw [hvv]

/-- **C9.** `applyRemoteOrder(order)` only adds `remote: true` to the raw
order, a field neither validation nor normalisation reads: it is equivalent
in result, final book state and emitted hooks to `addOrder(order)`. -/
theorem claim_C9 (o : RawOrder) (now : ℤ) (b : Book) :
    applyRemoteOrder o now b = addOrder o now b := by
  cases o
  rfl

/-! ## The shape of a successful `addOrder` -/

/-- Same-side heap accessor. -/
def sameOf (b : Book) : Side → List Order
  | Side.buy => b.bids
  | Side.sell => b.asks

/-- Same-side comparator. -/
def sameLtOf : Side → Order → Order → Bool
  | Side.buy => bidLt
  | Side.sell => askLt

/-- The residual aggressor after matching, with its final status
(`OrderBook.js` lines 103-105). -/
def remFin (o : RawOrder) (now : ℤ) (b : Book) : Order :=
  { (runMatch o now b).rem with
    status := if 0 < (runMatch o now b).trades.length then Status.partiallyFilled
      else Status.open_ }

/-- Everything a successful validated `addOrder` produces, stated once:
result fields, final book, and the emitted hook sequence. -/
theorem addOrderValid_spec (o : RawOrder) (now : ℤ) (b : Book) (r : AddResult) (b' : Book)
    (evs : List Emit) (h : addOrderValid o now b = (Except.ok r, b', evs)) :
    r.trades = (runMatch o now b).trades ∧
    b'.pair = b.pair ∧
    b'.pricePrecision = b.pricePrecision ∧
    b'.quantityPrecision = b.quantityPrecision ∧
    b'.trades = b.trades ++ (runMatch o now b).trades ∧
    oppOf b' (normalise b o now).side = (runMatch o now b).opp ∧
    (sameOf b' (normalise b o now).side = sameOf b (normalise b o now).side ∨
      (0 < (runMatch o now b).rem.quantity ∧ (remFin o now b).type = OType.limit ∧
        sameOf b' (normalise b o now).side =
          hinsert (sameLtOf (normalise b o now).side) (sameOf b (normalise b o now).side)
            (remFin o now b))) ∧
    (0 < (runMatch o now b).rem.quantity →
      r.remainder = some (remFin o now b) ∧ r.status = (remFin o now b).status) ∧
    (¬ 0 < (runMatch o now b).rem.quantity →
      r.remainder = none ∧ r.status = Status.filled) ∧
    (¬ ((remFin o now b).type = OType.limit ∧ 0 < (runMatch o now b).rem.quantity) →
      sameOf b' (normalise b o now).side = sameOf b (normalise b o now).side) ∧
    ∃ extra,
      evs = (runMatch o now b).evs ++
        (runMatch o now b).trades.map
          (fun t => Emit.trade t (b.trades ++ (runMatch o now b).trades)) ++ extra ∧
      (extra = [] ∨
        extra = [Emit.orderAdded (remFin o now b) (b.trades ++ (runMatch o now b).trades)]) := by
  unfold addOrderValid at h
  by_cases h1 : 0 < (runMatch o now b).rem.quantity
  · rw [if_pos h1] at h
    by_cases h2 : ({ (runMatch o now b).rem with
        status := if 0 < (runMatch o now b).trades.length then Status.partiallyFilled
          else Status.open_ } : Order).type = OType.limit
    · rw [if_pos h2] at h
      cases hside : (normalise b o now).side <;> rw [hside] at h <;>
        rw [Prod.mk.injEq, Prod.mk.injEq] at h <;>
        obtain ⟨hr, hb, he⟩ := h <;>
        (have hr' : r = _ := (Except.ok.inj hr).symm) <;> subst hr' <;> subst hb <;> subst he <;>
        refine ⟨rfl, rfl, rfl, rfl, rfl, rfl, Or.inr ⟨h1, h2, rfl⟩,
          fun _ => ⟨rfl, rfl⟩, fun hn => absurd h1 hn, fun hn => absurd ⟨h2, h1⟩ hn,
          ⟨[Emit.orderAdded (remFin o now b) (b.trades ++ (runMatch o now b).trades)],
            rfl, Or.inr rfl⟩⟩
    · rw [if_neg h2] at h
      cases hside : (normalise b o now).side <;> rw [hside] at h <;>
        rw [Prod.mk.injEq, Prod.mk.injEq] at h <;>
        obtain ⟨hr, hb, he⟩ := h <;>
        (have hr' : r = _ := (Except.ok.inj hr).symm) <;> subst hr' <;> subst hb <;> subst he <;>
        refine ⟨rfl, rfl, rfl, rfl, rfl, rfl, Or.inl rfl,
          fun _ => ⟨rfl, rfl⟩, fun hn => absurd h1 hn, fun _ => rfl,
          ⟨[], (List.append_nil _).symm, Or.inl rfl⟩⟩
  · rw [if_neg h1] at h
    cases hside : (normalise b o now).side <;> rw [hside] at h <;>
      rw [Prod.mk.injEq, Prod.mk.injEq] at h <;>
      obtain ⟨hr, hb, he⟩ := h <;>
      (have hr' : r = _ := (Except.ok.inj hr).symm) <;> subst hr' <;> subst hb <;> subst he <;>
      refine ⟨rfl, rfl, rfl, rfl, rfl, rfl, Or.inl rfl,
        fun hp => absurd hp h1, fun _ => ⟨rfl, rfl⟩, fun _ => rfl,
        ⟨[], (List.append_nil _).symm, Or.inl rfl⟩⟩

/-! ## Corollaries about `runMatch` -/

theorem runMatch_evs (o : RawOrder) (now : ℤ) (b : Book) :
    ∀ e ∈ (runMatch o now b).evs, ∃ ro, e = Emit.orderRemoved ro b.trades := by
  intro e he
  obtain ⟨el, hel, hall⟩ := (matchLoop_trades_evs (oppLtOf (normalise b o now).side) b.pair
    b.quantityPrecision now b.trades ((oppOf b (normalise b o now).side).length + 1)
    { rem := normalise b o now, opp := oppOf b (normalise b o now).side,
      trades := [], evs := [] }).2
  have h0 : (runMatch o now b).evs = [] ++ el := hel
  rw [List.nil_append] at h0
  rw [h0] at he
  exact hall e he

theorem runMatch_trades_track (o : RawOrder) (now : ℤ) (b : Book) :
    ∀ t ∈ (runMatch o now b).trades, ∃ y ∈ oppOf b (normalise b o now).side,
      t.price = y.price ∧ y.id = restingIdOf (normalise b o now).side t := by
  intro t ht
  have ht' : t ∈ (matchLoop (oppLtOf (normalise b o now).side) b.pair
      b.quantityPrecision now b.trades ((oppOf b (normalise b o now).side).length + 1)
      { rem := normalise b o now, opp := oppOf b (normalise b o now).side,
        trades := [], evs := [] }).trades := ht
  rcases matchLoop_trades_track _ _ _ _ _ _ _ t ht' with hin | ⟨y, hy, h1, h2⟩
  · exact absurd hin (List.not_mem_nil t)
  · exact ⟨y, hy, h1, h2⟩

theorem runMatch_opp_track (o : RawOrder) (now : ℤ) (b : Book) :
    ∀ x ∈ (runMatch o now b).opp, ∃ y ∈ oppOf b (normalise b o now).side, sameCore x y := by
  intro x hx
  have hx' : x ∈ (matchLoop (oppLtOf (normalise b o now).side) b.pair
      b.quantityPrecision now b.trades ((oppOf b (normalise b o now).side).length + 1)
      { rem := normalise b o now, opp := oppOf b (normalise b o now).side,
        trades := [], evs := [] }).opp := hx
  exact matchLoop_opp_track _ _ _ _ _ _ _ x hx'

theorem runMatch_rem (o : RawOrder) (now : ℤ) (b : Book) :
    ∃ q, (runMatch o now b).rem = qtySet (normalise b o now) q := by
  rcases matchLoop_rem (oppLtOf (normalise b o now).side) b.pair
    b.quantityPrecision now b.trades ((oppOf b (normalise b o now).side).length + 1)
    { rem := normalise b o now, opp := oppOf b (normalise b o now).side,
      trades := [], evs := [] } with ⟨q, hq⟩
  exact ⟨q, hq⟩

/-! ## Claims C1, C4, C7, C10 -/

/-- **C1 (amended).** Within one successful `addOrder` call, all trades of the
call are appended to the log before any `Trade` or `OrderAdded` hook fires
(those hooks observe `old log ++ call trades`), while `OrderRemoved` hooks
for fully consumed resting orders fire during matching and observe only the
old log, without the call's trades. -/
theorem claim_C1 (o : RawOrder) (now : ℤ) (b : Book) (r : AddResult) (b' : Book)
    (evs : List Emit) (h : addOrder o now b = (Except.ok r, b', evs)) :
    (∀ e ∈ evs, e.isOrderRemoved = false →
      e.logAtEmit = b.trades ++ r.trades ∧ ∀ t ∈ r.trades, t ∈ e.logAtEmit) ∧
    (∀ e ∈ evs, e.isOrderRemoved = true → e.logAtEmit = b.trades) := by
  obtain ⟨hv, hval⟩ := addOrder_ok_elim o now b r b' evs h
  obtain ⟨htr, _, _, _, _, _, _, _, _, _, extra, hevs, hextra⟩ :=
    addOrderValid_spec o now b r b' evs hval
  constructor
  · intro e he hnr
    rw [hevs] at he
    rcases List.mem_append.1 he with he1 | hex
    · rcases List.mem_append.1 he1 with hem | het
      · rcases runMatch_evs o now b e hem with ⟨ro, rfl⟩
        simp [Emit.isOrderRemoved] at hnr
      · rcases List.mem_map.1 het with ⟨t, _, rfl⟩
        refine ⟨by rw [htr]; rfl, ?_⟩
        intro t' ht'
        rw [htr] at ht'
        show t' ∈ b.trades ++ (runMatch o now b).trades
        exact List.mem_append_right _ ht'
    · rcases hextra with rfl | rfl
      · simp at hex
      · rcases List.mem_singleton.1 hex with rfl
        refine ⟨by rw [htr]; rfl, ?_⟩
        intro t' ht'
        rw [htr] at ht'
        show t' ∈ b.trades ++ (runMatch o now b).trades
        exact List.mem_append_right _ ht'
  · intro e he hr
    rw [hevs] at he
    rcases List.mem_append.1 he with he1 | hex
    · rcases List.mem_append.1 he1 with hem | het
      · rcases runMatch_evs o now b e hem with ⟨ro, rfl⟩
        rfl
      · rcases List.mem_map.1 het with ⟨t, _, rfl⟩
        simp [Emit.isOrderRemoved] at hr
    · rcases hextra with rfl | rfl
      · simp at hex
      · rcases List.mem_singleton.1 hex with rfl
        simp [Emit.isOrderRemoved] at hr

/-- A book with one resting ask, and a crossing buy: the concrete inputs of
the C1 counterexample and the C1/C4 witnesses. -/
def c1ask : Order :=
  { id := "s1", side := Side.sell, type := OType.limit, price := some 100,
    quantity := 1, peerId := none, timestamp := 10, status := Status.open_ }

def c1book : Book :=
  { pair := "P", pricePrecision := 2, quantityPrecision := 8,
    bids := [], asks := [c1ask], trades := [] }

def c1raw : RawOrder :=
  { id := some "b1", side := RawSide.buy, type := RawType.absent, price := some 100,
    quantity := some 1, peerId := none, timestamp := some 11, remote := false }

def c1out : Except String AddResult × Book × List Emit := addOrder c1raw 11 c1book

def c1r : AddResult :=
  match c1out.1 with
  | Except.ok r => r
  | Except.error _ => default

/-- **C1 (counterexample).** On the concrete call above, the resting ask is
fully consumed: an `OrderRemoved` hook fires during matching whose
`getTrades()` view does not contain the trade the call produced — so not
every hook of the call observes every trade of the call. -/
theorem claim_C1_cex :
    c1out.1 = Except.ok c1r ∧ c1r.trades ≠ [] ∧
      ∃ e ∈ c1out.2.2, ∃ t ∈ c1r.trades, t ∉ e.logAtEmit := by
  with_unfolding_all decide

theorem claim_C1_witness :
    (∀ e ∈ c1out.2.2, e.isOrderRemoved = false →
      e.logAtEmit = c1book.trades ++ c1r.trades ∧ ∀ t ∈ c1r.trades, t ∈ e.logAtEmit) ∧
    (∀ e ∈ c1out.2.2, e.isOrderRemoved = true → e.logAtEmit = c1book.trades) :=
  claim_C1 c1raw 11 c1book c1r c1out.2.1 c1out.2.2 (by with_unfolding_all decide)

/-- **C4.** Every trade of a successful `addOrder` call is priced at the
resting order's price: for each trade there is an order of the opposing heap
(at call entry; matching never rewrites prices, so its price is the price at
the moment of the match) whose id is the trade's resting-side order id and
whose price is the trade's price. -/
theorem claim_C4 (o : RawOrder) (now : ℤ) (b : Book) (r : AddResult) (b' : Book)
    (evs : List Emit) (h : addOrder o now b = (Except.ok r, b', evs)) :
    ∀ t ∈ r.trades, ∃ ro ∈ oppOf b (normalise b o now).side,
      t.price = ro.price ∧ ro.id = restingIdOf (normalise b o now).side t := by
  obtain ⟨hv, hval⟩ := addOrder_ok_elim o now b r b' evs h
  obtain ⟨htr, _⟩ := addOrderValid_spec o now b r b' evs hval
  intro t ht
  rw [htr] at ht
  exact runMatch_trades_track o now b t ht

theorem claim_C4_witness :
    ∃ ro ∈ oppOf c1book (normalise c1book c1raw 11).side,
      (c1r.trades.getD 0 default).price = ro.price ∧
        ro.id = restingIdOf (normalise c1book c1raw 11).side (c1r.trades.getD 0 default) :=
  claim_C4 c1raw 11 c1book c1r c1out.2.1 c1out.2.2 (by with_unfolding_all decide)
    (c1r.trades.getD 0 default) (by with_unfolding_all decide)

theorem mem_book_iff (bb : Book) (s : Side) (x : Order) :
    x ∈ bb.bids ++ bb.asks ↔ (x ∈ sameOf bb s ∨ x ∈ oppOf bb s) := by
  cases s <;> simp [sameOf, oppOf] <;> tauto

/-- **C7.** Market orders never rest: on a successful `addOrder` of an order
whose raw type is Market, the same-side heap is untouched (the residual is
discarded, never inserted), and consequently a book holding only Limit
orders still holds only Limit orders after any successful `addOrder`. -/
theorem claim_C7 (o : RawOrder) (now : ℤ) (b : Book) (r : AddResult) (b' : Book)
    (evs : List Emit) (h : addOrder o now b = (Except.ok r, b', evs)) :
    (o.type = RawType.market →
      sameOf b' (normalise b o now).side = sameOf b (normalise b o now).side) ∧
    ((∀ x ∈ b.bids ++ b.asks, x.type = OType.limit) →
      ∀ x ∈ b'.bids ++ b'.asks, x.type = OType.limit) := by
  obtain ⟨hv, hval⟩ := addOrder_ok_elim o now b r b' evs h
  obtain ⟨htr, _, _, _, _, hopp, hsame, _, _, hnoin, _⟩ :=
    addOrderValid_spec o now b r b' evs hval
  have hremtype : (remFin o now b).type = (normalise b o now).type := by
    rcases runMatch_rem o now b with ⟨q, hq⟩
    unfold remFin
    rw [hq]
    rfl
  constructor
  · intro hmkt
    refine hnoin ?_
    rintro ⟨hlim, _⟩
    rw [hremtype] at hlim
    unfold normalise at hlim
    simp [hmkt] at hlim
  · intro hall x hx
    rcases (mem_book_iff b' (normalise b o now).side x).1 hx with hs | ho
    · rcases hsame with heq | ⟨hpos, hlim, hins⟩
      · rw [heq] at hs
        exact hall x ((mem_book_iff b (normalise b o now).side x).2 (Or.inl hs))
      · rw [hins] at hs
        have hmem := (hinsert_perm (sameLtOf (normalise b o now).side)
          (sameOf b (normalise b o now).side) (remFin o now b)).mem_iff.1 hs
        rcases List.mem_cons.1 hmem with rfl | hmem2
        · exact hlim
        · exact hall x ((mem_book_iff b (normalise b o now).side x).2 (Or.inl hmem2))
    · rw [hopp] at ho
      rcases runMatch_opp_track o now b x ho with ⟨y, hy, hxy⟩
      rcases sameCore_fields x y hxy with ⟨_, _, _, _, hty, _⟩
      rw [hty]
      exact hall y ((mem_book_iff b (normalise b o now).side y).2 (Or.inr hy))

theorem runMatch_empty (o : RawOrder) (now : ℤ) (b : Book)
    (hopp : oppOf b (normalise b o now).side = []) :
    runMatch o now b =
      { rem := normalise b o now, opp := [], trades := [], evs := [] } := by
  unfold runMatch
  rw [hopp]
  exact matchLoop_stop _ _ _ _ _ _ _ (by simp [matchCond])

/-- **C10 (amended).** A valid Market order finding an empty opposing heap,
and whose quantity is still positive after normalisation (rounding to the
quantity precision), returns zero trades, status Open and a remainder that
carries the full normalised order, while the book — both heaps and the trade
log — is unchanged and no hook fires. -/
theorem claim_C10 (o : RawOrder) (now : ℤ) (b : Book)
    (hv : validateErr o = none) (hm : o.type = RawType.market)
    (hopp : oppOf b (normalise b o now).side = [])
    (hq : 0 < (normalise b o now).quantity) :
    addOrder o now b =
      (Except.ok (AddResult.mk []
          (some { normalise b o now with status := Status.open_ }) Status.open_),
        b, []) := by
  have htype : (normalise b o now).type = OType.market := by
    simp [normalise, hm]
  unfold addOrder
  rw [hv]
  unfold addOrderValid
  rw [runMatch_empty o now b hopp]
  dsimp only
  rw [if_pos hq]
  have hcond : ¬ (({ normalise b o now with
      status := if 0 < ([] : List Trade).length then Status.partiallyFilled
        else Status.open_ } : Order).type = OType.limit) := by
    show ¬ ((normalise b o now).type = OType.limit)
    rw [htype]
    intro hcontra
    exact OType.noConfusion hcontra
  rw [if_neg hcond]
  have hifl : (if 0 < ([] : List Trade).length then Status.partiallyFilled
      else Status.open_) = Status.open_ := rfl
  rw [hifl]
  cases hside : (normalise b o now).side with
  | buy =>
    have hasks : b.asks = [] := by
      rw [hside] at hopp
      exact hopp
    dsimp only [List.map_nil, List.nil_append]
    congr 1
    congr 1
    rw [List.append_nil, ← hasks]
  | sell =>
    have hbids : b.bids = [] := by
      rw [hside] at hopp
      exact hopp
    dsimp only [List.map_nil, List.nil_append]
    congr 1
    congr 1
    rw [List.append_nil, ← hbids]

def c10book : Book := Book.fresh "P" 2 2

def c10raw : RawOrder :=
  { id := some "m1", side := RawSide.buy, type := RawType.market, price := none,
    quantity := some (1 / 1000), peerId := none, timestamp := some 5, remote := false }

/-- **C10 (counterexample).** A *valid* Market buy of quantity `0.001` on a
book with quantity precision 2 and an empty ask heap: the quantity rounds to
`0` during normalisation, so the call returns status `Filled` with a `null`
remainder — not status `Open` with a non-null remainder as the claim states
for every valid market order without opposing liquidity. -/
theorem claim_C10_cex :
    validateErr c10raw = none ∧ c10raw.type = RawType.market ∧
      oppOf c10book (normalise c10book c10raw 5).side = [] ∧
      addOrder c10raw 5 c10book =
        (Except.ok { trades := [], remainder := none, status := Status.filled },
          c10book, []) := by
  with_unfolding_all decide

def c10wraw : RawOrder :=
  { id := some "m2", side := RawSide.buy, type := RawType.market, price := none,
    quantity := some 3, peerId := none, timestamp := some 5, remote := false }

theorem claim_C10_witness :
    addOrder c10wraw 5 c10book =
      (Except.ok (AddResult.mk []
          (some { normalise c10book c10wraw 5 with status := Status.open_ }) Status.open_),
        c10book, []) :=
  claim_C10 c10wraw 5 c10book (by with_unfolding_all decide) rfl
    (by with_unfolding_all decide) (by with_unfolding_all decide)

/-! ## The heap-order invariant -/

/-- The binary-heap invariant for a comparator `lt`: no child sorts strictly
before its parent. -/
def Valid (lt : Order → Order → Bool) (l : List Order) : Prop :=
  ∀ i, i < l.length → 0 < i → lt (gOrd l i) (gOrd l (par i)) = false

instance (lt : Order → Order → Bool) (l : List Order) : Decidable (Valid lt l) :=
  Nat.decidableBallLT l.length fun i _ => 0 < i → lt (gOrd l i) (gOrd l (par i)) = false

/-- An order whose price is present (`null` prices coerce to `0` in the JS
comparators and break the weak-order laws; resting orders of well-formed
books always carry a price). -/
def somePrice (o : Order) : Prop := o.price.isSome = true

instance (o : Order) : Decidable (somePrice o) :=
  decidable_of_iff (o.price.isSome = true) Iff.rfl

theorem bidLt_asymm (a b : Order) (h : bidLt a b = true) : bidLt b a = false := by
  unfold bidLt at *
  by_cases hp : a.price = b.price
  · rw [if_pos hp] at h
    rw [if_pos hp.symm]
    simp only [decide_eq_true_eq] at h
    simp only [decide_eq_false_iff_not]
    omega
  · rw [if_neg hp] at h
    rw [if_neg fun hc => hp hc.symm]
    simp only [decide_eq_true_eq] at h
    simp only [decide_eq_false_iff_not]
    linarith

theorem askLt_asymm (a b : Order) (h : askLt a b = true) : askLt b a = false := by
  unfold askLt at *
  by_cases hp : a.price = b.price
  · rw [if_pos hp] at h
    rw [if_pos hp.symm]
    simp only [decide_eq_true_eq] at h
    simp only [decide_eq_false_iff_not]
    omega
  · rw [if_neg hp] at h
    rw [if_neg fun hc => hp hc.symm]
    simp only [decide_eq_true_eq] at h
    simp only [decide_eq_false_iff_not]
    linarith

theorem pv_congr (a b : Order) (h : a.price = b.price) : pv a.price = pv b.price := by
  rw [h]

theorem bidLt_trans (a b c : Order) (h1 : bidLt a b = true) (h2 : bidLt b c = true) :
    bidLt a c = true := by
  unfold bidLt at *
  by_cases hab : a.price = b.price
  · by_cases hbc : b.price = c.price
    · rw [if_pos hab] at h1
      rw [if_pos hbc] at h2
      rw [if_pos (hab.trans hbc)]
      simp only [decide_eq_true_eq] at h1 h2 ⊢
      omega
    · rw [if_pos hab] at h1
      rw [if_neg hbc] at h2
      rw [if_neg (fun hc => hbc (hab ▸ hc))]
      simp only [decide_eq_true_eq] at h1 h2 ⊢
      rw [pv_congr a b hab]
      exact h2
  · by_cases hbc : b.price = c.price
    · rw [if_neg hab] at h1
      rw [if_pos hbc] at h2
      rw [if_neg (fun hc => hab (hc.trans hbc.symm))]
      simp only [decide_eq_true_eq] at h1 h2 ⊢
      rw [← pv_congr b c hbc]
      exact h1
    · rw [if_neg hab] at h1
      rw [if_neg hbc] at h2
      simp only [decide_eq_true_eq] at h1 h2
      have hlt : pv c.price < pv a.price := lt_trans h2 h1
      have hac : a.price ≠ c.price := by
        intro hc
        rw [pv_congr a c hc] at hlt
        exact lt_irrefl _ hlt
      rw [if_neg hac]
      simp only [decide_eq_true_eq]
      exact hlt

theorem askLt_trans (a b c : Order) (h1 : askLt a b = true) (h2 : askLt b c = true) :
    askLt a c = true := by
  unfold askLt at *
  by_cases hab : a.price = b.price
  · by_cases hbc : b.price = c.price
    · rw [if_pos hab] at h1
      rw [if_pos hbc] at h2
      rw [if_pos (hab.trans hbc)]
      simp only [decide_eq_true_eq] at h1 h2 ⊢
      omega
    · rw [if_pos hab] at h1
      rw [if_neg hbc] at h2
      rw [if_neg (fun hc => hbc (hab ▸ hc))]
      simp only [decide_eq_true_eq] at h1 h2 ⊢
      rw [pv_congr a b hab]
      exact h2
  · by_cases hbc : b.price = c.price
    · rw [if_neg hab] at h1
      rw [if_pos hbc] at h2
      rw [if_neg (fun hc => hab (hc.trans hbc.symm))]
      simp only [decide_eq_true_eq] at h1 h2 ⊢
      rw [← pv_congr b c hbc]
      exact h1
    · rw [if_neg hab] at h1
      rw [if_neg hbc] at h2
      simp only [decide_eq_true_eq] at h1 h2
      have hlt : pv a.price < pv c.price := lt_trans h1 h2
      have hac : a.price ≠ c.price := by
        intro hc
        rw [pv_congr a c hc] at hlt
        exact lt_irrefl _ hlt
      rw [if_neg hac]
      simp only [decide_eq_true_eq]
      exact hlt

theorem somePrice_eq_iff (a b : Order) (ha : somePrice a) (hb : somePrice b) :
    a.price = b.price ↔ pv a.price = pv b.price := by
  unfold somePrice at ha hb
  rcases Option.isSome_iff_exists.1 ha with ⟨pa, hpa⟩
  rcases Option.isSome_iff_exists.1 hb with ⟨pb, hpb⟩
  rw [hpa, hpb]
  unfold pv
  simp

theorem bidLt_weak (a b c : Order) (ha : somePrice a) (hb : somePrice b) (hc : somePrice c)
    (h : bidLt a c = true) : bidLt a b = true ∨ bidLt b c = true := by
  unfold bidLt at *
  by_cases hac : a.price = c.price
  · rw [if_pos hac] at h
    simp only [decide_eq_true_eq] at h
    by_cases hab : a.price = b.price
    · have hbc : b.price = c.price := hab.symm.trans hac
      rw [if_pos hab, if_pos hbc]
      simp only [decide_eq_true_eq]
      omega
    · have hbc : b.price ≠ c.price := fun hx => hab (hac.trans hx.symm)
      rw [if_neg hab, if_neg hbc]
      simp only [decide_eq_true_eq]
      have hne : pv a.price ≠ pv b.price := fun hx => hab ((somePrice_eq_iff a b ha hb).2 hx)
      have hpeq : pv a.price = pv c.price := pv_congr a c hac
      rcases lt_or_gt_of_ne hne with hlt | hgt
      · right
        rw [← hpeq]
        exact hlt
      · left
        exact hgt
  · rw [if_neg hac] at h
    simp only [decide_eq_true_eq] at h
    by_cases hab : a.price = b.price
    · have hbc : b.price ≠ c.price := fun hx => hac (hab.trans hx)
      rw [if_neg hbc]
      simp only [decide_eq_true_eq]
      right
      rw [← pv_congr a b hab]
      exact h
    · by_cases hbc : b.price = c.price
      · rw [if_neg hab]
        simp only [decide_eq_true_eq]
        left
        rw [pv_congr b c hbc]
        exact h
      · rw [if_neg hab, if_neg hbc]
        simp only [decide_eq_true_eq]
        have hne : pv a.price ≠ pv b.price := fun hx => hab ((somePrice_eq_iff a b ha hb).2 hx)
        rcases lt_or_gt_of_ne hne with hlt | hgt
        · right
          exact lt_trans h hlt
        · left
          exact hgt

theorem askLt_weak (a b c : Order) (ha : somePrice a) (hb : somePrice b) (hc : somePrice c)
    (h : askLt a c = true) : askLt a b = true ∨ askLt b c = true := by
  unfold askLt at *
  by_cases hac : a.price = c.price
  · rw [if_pos hac] at h
    simp only [decide_eq_true_eq] at h
    by_cases hab : a.price = b.price
    · have hbc : b.price = c.price := hab.symm.trans hac
      rw [if_pos hab, if_pos hbc]
      simp only [decide_eq_true_eq]
      omega
    · have hbc : b.price ≠ c.price := fun hx => hab (hac.trans hx.symm)
      rw [if_neg hab, if_neg hbc]
      simp only [decide_eq_true_eq]
      have hne : pv a.price ≠ pv b.price := fun hx => hab ((somePrice_eq_iff a b ha hb).2 hx)
      have hpeq : pv a.price = pv c.price := pv_congr a c hac
      rcases lt_or_gt_of_ne hne with hlt | hgt
      · left
        exact hlt
      · right
        rw [← hpeq]
        exact hgt
  · rw [if_neg hac] at h
    simp only [decide_eq_true_eq] at h
    by_cases hab : a.price = b.price
    · have hbc : b.price ≠ c.price := fun hx => hac (hab.trans hx)
      rw [if_neg hbc]
      simp only [decide_eq_true_eq]
      right
      rw [← pv_congr a b hab]
      exact h
    · by_cases hbc : b.price = c.price
      · rw [if_neg hab]
        simp only [decide_eq_true_eq]
        left
        rw [pv_congr b c hbc]
        exact h
      · rw [if_neg hab, if_neg hbc]
        simp only [decide_eq_true_eq]
        have hne : pv b.price ≠ pv c.price := fun hx => hbc ((somePrice_eq_iff b c hb hc).2 hx)
        rcases lt_or_gt_of_ne hne with hlt | hgt
        · right
          exact hlt
        · left
          exact lt_trans h hgt

/-! ### Sift correctness -/

theorem gOrd_mem (l : List Order) (i : ℕ) (h : i < l.length) : gOrd l i ∈ l := by
  rw [gOrd_eq_getElem l i h]
  exact List.getElem_mem h

theorem gOrd_set_self (l : List Order) (i : ℕ) (v : Order) (h : i < l.length) :
    gOrd (l.set i v) i = v := by
  simp [gOrd, List.getD_eq_getElem?_getD, List.getElem?_set_self h]

theorem gOrd_set_ne (l : List Order) (i j : ℕ) (v : Order) (h : i ≠ j) :
    gOrd (l.set i v) j = gOrd l j := by
  simp [gOrd, List.getD_eq_getElem?_getD, List.getElem?_set_ne h]

theorem gOrd_hswap (l : List Order) (i j k : ℕ) (hi : i < l.length) (hj : j < l.length) :
    gOrd (hswap l i j) k =
      if k = j then gOrd l i else if k = i then gOrd l j else gOrd l k := by
  unfold hswap
  by_cases hkj : k = j
  · subst hkj
    rw [if_pos rfl]
    exact gOrd_set_self _ _ _ (by simpa using hj)
  · rw [if_neg hkj, gOrd_set_ne _ _ _ _ (fun hc => hkj hc.symm)]
    by_cases hki : k = i
    · subst hki
      rw [if_pos rfl]
      exact gOrd_set_self _ _ _ hi
    · rw [if_neg hki, gOrd_set_ne _ _ _ _ (fun hc => hki hc.symm)]

theorem par_lt (i : ℕ) (h : 0 < i) : par i < i := by
  unfold par
  omega

theorem par_children (i j : ℕ) (h0 : 0 < j) : par j = i ↔ (j = 2 * i + 1 ∨ j = 2 * i + 2) := by
  unfold par
  omega

/-- During `#bubbleUp`, only the edge into the hole may be unordered, and the
hole's children already fit below the hole's parent. -/
structure UpOK (lt : Order → Order → Bool) (l : List Order) (hole : ℕ) : Prop where
  bounded : hole < l.length
  heap : ∀ j, 0 < j → j < l.length → j ≠ hole → lt (gOrd l j) (gOrd l (par j)) = false
  below : ∀ j, j < l.length → par j = hole → 0 < hole →
    lt (gOrd l j) (gOrd l (par hole)) = false

theorem notLt_trans (lt : Order → Order → Bool) (S : Order → Prop)
    (hweak : ∀ a b c, S a → S b → S c → lt a c = true → lt a b = true ∨ lt b c = true)
    (a b c : Order) (ha : S a) (hb : S b) (hc : S c)
    (h1 : lt a b = false) (h2 : lt b c = false) : lt a c = false := by
  by_cases h : lt a c = true
  · rcases hweak a b c ha hb hc h with hx | hx
    · rw [hx] at h1
      exact absurd h1 (by simp)
    · rw [hx] at h2
      exact absurd h2 (by simp)
  · simpa using h

theorem bubbleUp_valid (lt : Order → Order → Bool)
    (hasymm : ∀ a b, lt a b = true → lt b a = false)
    (htrans : ∀ a b c, lt a b = true → lt b c = true → lt a c = true)
    (S : Order → Prop)
    (hweak : ∀ a b c, S a → S b → S c → lt a c = true → lt a b = true ∨ lt b c = true)
    (l : List Order) (i : ℕ) (hS : ∀ x ∈ l, S x) (hok : UpOK lt l i) :
    Valid lt (bubbleUp lt l i) := by
  induction i using Nat.strong_induction_on generalizing l with
  | _ i ih =>
    rw [bubbleUp]
    by_cases hi0 : i = 0
    · rw [dif_pos hi0]
      intro j hj hj0
      exact hok.heap j hj0 hj (by omega)
    · rw [dif_neg hi0]
      have h0i : 0 < i := Nat.pos_of_ne_zero hi0
      have hpi : par i < i := par_lt i h0i
      have hlen : i < l.length := hok.bounded
      have hplen : par i < l.length := lt_trans hpi hlen
      by_cases hlt : lt (gOrd l i) (gOrd l (par i)) = true
      · rw [if_pos hlt]
        have hswlen : (hswap l i (par i)).length = l.length := hswap_length l i (par i)
        have hval : ∀ k, gOrd (hswap l i (par i)) k =
            if k = par i then gOrd l i else if k = i then gOrd l (par i) else gOrd l k :=
          fun k => gOrd_hswap l i (par i) k hlen hplen
        refine ih (par i) hpi (hswap l i (par i)) ?_ ?_
        · intro x hx
          exact hS x ((hswap_perm l i (par i) hlen hplen).mem_iff.1 hx)
        · refine ⟨by omega, ?_, ?_⟩
          · -- heap away from the new hole (par i)
            intro j hj0 hjlen hjne
            rw [hswlen] at hjlen
            by_cases hji : j = i
            · subst hji
              rw [hval j, hval (par j), if_neg (by omega), if_pos rfl, if_pos rfl]
              exact hasymm _ _ hlt
            · have hvj : gOrd (hswap l i (par i)) j = gOrd l j := by
                rw [hval j, if_neg hjne, if_neg hji]
              by_cases hpj : par j = par i
              · rw [hvj, hval (par j), hpj, if_pos rfl]
                by_cases hc : lt (gOrd l j) (gOrd l i) = true
                · have := htrans _ _ _ hc hlt
                  have h2 := hok.heap j hj0 hjlen hji
                  rw [hpj] at h2
                  rw [this] at h2
                  exact absurd h2 (by simp)
                · simpa using hc
              · by_cases hpji : par j = i
                · rw [hvj, hval (par j), hpji, if_neg (by omega), if_pos rfl]
                  have := hok.below j hjlen hpji h0i
                  exact this
                · rw [hvj, hval (par j), if_neg hpj, if_neg hpji]
                  exact hok.heap j hj0 hjlen hji
          · -- children of the new hole sit below its parent
            intro j hjlen hpj hp0
            rw [hswlen] at hjlen
            have hppne_i : par (par i) ≠ i := by
              have := par_lt (par i) hp0
              omega
            have hppne_p : par (par i) ≠ par i := by
              have := par_lt (par i) hp0
              omega
            have hvpp : gOrd (hswap l i (par i)) (par (par i)) = gOrd l (par (par i)) := by
              rw [hval (par (par i)), if_neg hppne_p, if_neg hppne_i]
            have hpplen : par (par i) < l.length := lt_trans (par_lt (par i) hp0) hplen
            by_cases hji : j = i
            · rw [hval j, hvpp, if_neg (by omega), if_pos hji]
              exact hok.heap (par i) hp0 hplen (by omega)
            · have hjp : j ≠ par i := by
                intro hc
                rw [hc] at hpj
                have := par_lt (par i) hp0
                omega
              rw [hval j, hvpp, if_neg hjp, if_neg hji]
              have hj0 : 0 < j := by
                rcases Nat.eq_zero_or_pos j with h0 | h0
                · rw [h0] at hpj
                  rw [show par 0 = 0 from rfl] at hpj
                  omega
                · exact h0
              refine notLt_trans lt S hweak (gOrd l j) (gOrd l (par i)) (gOrd l (par (par i)))
                (hS _ (gOrd_mem l j hjlen)) (hS _ (gOrd_mem l (par i) hplen))
                (hS _ (gOrd_mem l (par (par i)) hpplen)) ?_ ?_
              · have := hok.heap j hj0 hjlen hji
                rw [hpj] at this
                exact this
              · exact hok.heap (par i) hp0 hplen (by omega)
      · rw [if_neg hlt]
        intro j hj hj0
        by_cases hji : j = i
        · subst hji
          simpa using hlt
        · exact hok.heap j hj0 hj hji

theorem dnTarget1_eq (lt : Order → Order → Bool) (l : List Order) (i : ℕ) :
    dnTarget1 lt l i = 2 * i + 1 ∨ dnTarget1 lt l i = i := by
  unfold dnTarget1
  split
  · exact Or.inl rfl
  · exact Or.inr rfl

theorem dnTarget_eq_self (lt : Order → Order → Bool) (l : List Order) (i : ℕ)
    (h : dnTarget lt l i = i) :
    ∀ j, j < l.length → (j = 2 * i + 1 ∨ j = 2 * i + 2) →
      lt (gOrd l j) (gOrd l i) = false := by
  intro j hj hj2
  by_cases h1 : 2 * i + 1 < l.length ∧ lt (gOrd l (2 * i + 1)) (gOrd l i) = true
  · exfalso
    have hd1 : dnTarget1 lt l i = 2 * i + 1 := by
      unfold dnTarget1
      rw [if_pos h1]
    unfold dnTarget at h
    rw [hd1] at h
    by_cases c2 : 2 * i + 2 < l.length ∧ lt (gOrd l (2 * i + 2)) (gOrd l (2 * i + 1)) = true
    · rw [if_pos c2] at h
      omega
    · rw [if_neg c2] at h
      omega
  · have hd1 : dnTarget1 lt l i = i := by
      unfold dnTarget1
      rw [if_neg h1]
    unfold dnTarget at h
    rw [hd1] at h
    by_cases c2 : 2 * i + 2 < l.length ∧ lt (gOrd l (2 * i + 2)) (gOrd l i) = true
    · rw [if_pos c2] at h
      omega
    · rw [if_neg c2] at h
      rcases hj2 with rfl | rfl
      · by_cases hb : lt (gOrd l (2 * i + 1)) (gOrd l i) = true
        · exact absurd ⟨hj, hb⟩ h1
        · simpa using hb
      · by_cases hb : lt (gOrd l (2 * i + 2)) (gOrd l i) = true
        · exact absurd ⟨hj, hb⟩ c2
        · simpa using hb

theorem dnTarget_spec (lt : Order → Order → Bool)
    (hasymm : ∀ a b, lt a b = true → lt b a = false)
    (htrans : ∀ a b c, lt a b = true → lt b c = true → lt a c = true)
    (l : List Order) (i : ℕ) (h : dnTarget lt l i ≠ i) :
    i < dnTarget lt l i ∧ dnTarget lt l i < l.length ∧
      (dnTarget lt l i = 2 * i + 1 ∨ dnTarget lt l i = 2 * i + 2) ∧
      lt (gOrd l (dnTarget lt l i)) (gOrd l i) = true ∧
      ∀ j, j < l.length → (j = 2 * i + 1 ∨ j = 2 * i + 2) → j ≠ dnTarget lt l i →
        lt (gOrd l j) (gOrd l (dnTarget lt l i)) = false := by
  by_cases h1 : 2 * i + 1 < l.length ∧ lt (gOrd l (2 * i + 1)) (gOrd l i) = true
  · have hd1 : dnTarget1 lt l i = 2 * i + 1 := by
      unfold dnTarget1
      rw [if_pos h1]
    by_cases c2 : 2 * i + 2 < l.length ∧ lt (gOrd l (2 * i + 2)) (gOrd l (2 * i + 1)) = true
    · have hd : dnTarget lt l i = 2 * i + 2 := by
        unfold dnTarget
        rw [hd1, if_pos c2]
      rw [hd]
      refine ⟨by omega, c2.1, Or.inr rfl, htrans _ _ _ c2.2 h1.2, ?_⟩
      intro j hj hj2 hjne
      have hje : j = 2 * i + 1 := by omega
      rw [hje]
      exact hasymm _ _ c2.2
    · have hd : dnTarget lt l i = 2 * i + 1 := by
        unfold dnTarget
        rw [hd1, if_neg c2]
      rw [hd]
      refine ⟨by omega, h1.1, Or.inl rfl, h1.2, ?_⟩
      intro j hj hj2 hjne
      have hje : j = 2 * i + 2 := by omega
      rw [hje]
      by_cases hb : lt (gOrd l (2 * i + 2)) (gOrd l (2 * i + 1)) = true
      · exact absurd ⟨by omega, hb⟩ c2
      · simpa using hb
  · have hd1 : dnTarget1 lt l i = i := by
      unfold dnTarget1
      rw [if_neg h1]
    by_cases c2 : 2 * i + 2 < l.length ∧ lt (gOrd l (2 * i + 2)) (gOrd l i) = true
    · have hd : dnTarget lt l i = 2 * i + 2 := by
        unfold dnTarget
        rw [hd1, if_pos c2]
      rw [hd]
      refine ⟨by omega, c2.1, Or.inr rfl, c2.2, ?_⟩
      intro j hj hj2 hjne
      have hje : j = 2 * i + 1 := by omega
      rw [hje]
      by_cases hb : lt (gOrd l (2 * i + 1)) (gOrd l (2 * i + 2)) = true
      · exfalso
        have := htrans _ _ _ hb c2.2
        exact absurd ⟨by omega, this⟩ h1
      · simpa using hb
    · exfalso
      apply h
      unfold dnTarget
      rw [hd1, if_neg c2]

/-- During `#bubbleDown`, only the edges out of the hole may be unordered,
and the hole's children already fit below the hole's parent. -/
structure DownOK (lt : Order → Order → Bool) (l : List Order) (hole : ℕ) : Prop where
  heap : ∀ j, 0 < j → j < l.length → par j ≠ hole → lt (gOrd l j) (gOrd l (par j)) = false
  below : ∀ j, j < l.length → par j = hole → 0 < hole →
    lt (gOrd l j) (gOrd l (par hole)) = false

theorem bubbleDown_valid (lt : Order → Order → Bool)
    (hasymm : ∀ a b, lt a b = true → lt b a = false)
    (htrans : ∀ a b c, lt a b = true → lt b c = true → lt a c = true)
    (l : List Order) (i : ℕ) (hok : DownOK lt l i) : Valid lt (bubbleDown lt l i) := by
  induction l, i using bubbleDown.induct lt with
  | case1 l i h =>
    rw [bubbleDown, dif_pos h]
    intro j hj hj0
    by_cases hpj : par j = i
    · have hchild : j = 2 * i + 1 ∨ j = 2 * i + 2 := (par_children i j hj0).1 hpj
      rw [hpj]
      exact dnTarget_eq_self lt l i h j hj hchild
    · exact hok.heap j hj0 hj hpj
  | case2 l i h ih =>
    rw [bubbleDown, dif_neg h]
    obtain ⟨hid, hdn, hd2, hlt, hsib⟩ := dnTarget_spec lt hasymm htrans l i h
    have hilen : i < l.length := lt_trans hid hdn
    have hpd : par (dnTarget lt l i) = i := by
      refine (par_children i (dnTarget lt l i) (by omega)).2 hd2
    have hval : ∀ k, gOrd (hswap l i (dnTarget lt l i)) k =
        if k = dnTarget lt l i then gOrd l i
        else if k = i then gOrd l (dnTarget lt l i) else gOrd l k :=
      fun k => gOrd_hswap l i (dnTarget lt l i) k hilen hdn
    have hswlen : (hswap l i (dnTarget lt l i)).length = l.length :=
      hswap_length l i (dnTarget lt l i)
    apply ih
    constructor
    · -- heap away from the new hole
      intro j hj0 hjlen hpjne
      rw [hswlen] at hjlen
      by_cases hjd : j = dnTarget lt l i
      · rw [hval j, if_pos hjd, hval (par j), hjd, hpd,
          if_neg (by omega), if_pos rfl]
        exact hasymm _ _ hlt
      · by_cases hji : j = i
        · rw [hval j, if_neg hjd, if_pos hji, hval (par j), hji]
          have h0i : 0 < i := hji ▸ hj0
          have hpii : par i < i := par_lt i h0i
          rw [if_neg (by omega), if_neg (by omega)]
          exact hok.below (dnTarget lt l i) hdn hpd h0i
        · rw [hval j, if_neg hjd, if_neg hji]
          by_cases hpji : par j = i
          · rw [hval (par j), hpji, if_neg (by omega), if_pos rfl]
            have hchild : j = 2 * i + 1 ∨ j = 2 * i + 2 := (par_children i j hj0).1 hpji
            exact hsib j hjlen hchild hjd
          · rw [hval (par j), if_neg hpjne, if_neg hpji]
            exact hok.heap j hj0 hjlen hpji
    · -- grandchildren below the moved-down node
      intro j hjlen hpj hd0
      rw [hswlen] at hjlen
      rw [hpd]
      have hjgt : dnTarget lt l i < j := by
        have : 0 < j := by
          rcases Nat.eq_zero_or_pos j with h0 | h0
          · rw [h0] at hpj
            rw [show par 0 = 0 from rfl] at hpj
            omega
          · exact h0
        have hch := (par_children (dnTarget lt l i) j this).1 hpj
        omega
      have hji : j ≠ i := by omega
      have hjd : j ≠ dnTarget lt l i := by omega
      rw [hval j, if_neg hjd, if_neg hji, hval i, if_neg (by omega), if_pos rfl]
      have hpjni : par j ≠ i := by
        rw [hpj]
        omega
      have hj0 : 0 < j := by omega
      have := hok.heap j hj0 hjlen hpjni
      rw [hpj] at this
      exact this

theorem gOrd_append (l : List Order) (x : Order) (j : ℕ) (h : j < l.length) :
    gOrd (l ++ [x]) j = gOrd l j := by
  simp [gOrd, List.getD_eq_getElem?_getD, List.getElem?_append, h]

theorem gOrd_append_last (l : List Order) (x : Order) : gOrd (l ++ [x]) l.length = x := by
  simp [gOrd, List.getD_eq_getElem?_getD]

/-- `insert` preserves the heap invariant. -/
theorem hinsert_valid (lt : Order → Order → Bool)
    (hasymm : ∀ a b, lt a b = true → lt b a = false)
    (htrans : ∀ a b c, lt a b = true → lt b c = true → lt a c = true)
    (S : Order → Prop)
    (hweak : ∀ a b c, S a → S b → S c → lt a c = true → lt a b = true ∨ lt b c = true)
    (l : List Order) (x : Order) (hS : ∀ y ∈ l ++ [x], S y) (hv : Valid lt l) :
    Valid lt (hinsert lt l x) := by
  unfold hinsert
  refine bubbleUp_valid lt hasymm htrans S hweak _ _ hS ⟨by simp, ?_, ?_⟩
  · intro j hj0 hjlen hjne
    have hjl : j < l.length := by
      simp only [List.length_append, List.length_singleton] at hjlen
      omega
    have hpl : par j < l.length := lt_trans (par_lt j hj0) hjl
    rw [gOrd_append _ _ _ hjl, gOrd_append _ _ _ hpl]
    exact hv j hjl hj0
  · intro j hjlen hpj h0
    exfalso
    have hj0 : 0 < j := by
      rcases Nat.eq_zero_or_pos j with hz | hz
      · rw [hz] at hpj
        rw [show par 0 = 0 from rfl] at hpj
        omega
      · exact hz
    have := (par_children l.length j hj0).1 hpj
    simp only [List.length_append, List.length_singleton] at hjlen
    omega

theorem gOrd_dropLast (l : List Order) (j : ℕ) (h : j < l.length - 1) :
    gOrd l.dropLast j = gOrd l j := by
  unfold gOrd
  rw [List.getD_eq_getElem?_getD, List.getD_eq_getElem?_getD, List.getElem?_dropLast]
  simp [h]

theorem valid_dropLast (lt : Order → Order → Bool) (l : List Order) (hv : Valid lt l) :
    Valid lt l.dropLast := by
  intro j hj hj0
  have hlen : l.dropLast.length = l.length - 1 := by simp
  rw [hlen] at hj
  rw [gOrd_dropLast l j hj, gOrd_dropLast l (par j) (by
    have := par_lt j hj0
    omega)]
  exact hv j (by omega) hj0

theorem valid_nil (lt : Order → Order → Bool) : Valid lt [] := by
  intro j hj
  simp at hj

/-- `extractTop` preserves the heap invariant. -/
theorem extractTop_valid (lt : Order → Order → Bool)
    (hasymm : ∀ a b, lt a b = true → lt b a = false)
    (htrans : ∀ a b c, lt a b = true → lt b c = true → lt a c = true)
    (l : List Order) (hv : Valid lt l) : Valid lt (extractTop lt l).2 := by
  cases l with
  | nil => exact valid_nil lt
  | cons x t =>
    have hshape : (extractTop lt (x :: t)).2 =
        if ((x :: t).dropLast).isEmpty then [] else
          bubbleDown lt (((x :: t).dropLast).set 0 ((x :: t).getLast?.getD default)) 0 := by
      unfold extractTop
      by_cases hemp : ((x :: t).dropLast).isEmpty = true <;> simp [hemp]
    rw [hshape]
    by_cases hemp : ((x :: t).dropLast).isEmpty = true
    · rw [if_pos hemp]
      exact valid_nil lt
    · rw [if_neg hemp]
      have hdlen : ((x :: t).dropLast).length = t.length := by simp
      have htpos : 0 < t.length := by
        cases ht : t with
        | nil =>
          rw [ht] at hemp
          simp [List.dropLast] at hemp
        | cons b s => simp
      refine bubbleDown_valid lt hasymm htrans _ 0 ⟨?_, ?_⟩
      · intro j hj0 hjlen hpjne
        rw [List.length_set, hdlen] at hjlen
        have hjlt : j < (x :: t).length - 1 := by
          simp only [List.length_cons]
          omega
        have hplt : par j < (x :: t).length - 1 := by
          have := par_lt j hj0
          simp only [List.length_cons]
          omega
        rw [gOrd_set_ne _ _ _ _ (by omega), gOrd_set_ne _ _ _ _ (by
          intro hc
          exact hpjne hc.symm), gOrd_dropLast _ _ hjlt, gOrd_dropLast _ _ hplt]
        exact hv j (by simp; omega) hj0
      · intro j hjlen hpj h0
        omega

theorem valid_to_DownOK (lt : Order → Order → Bool)
    (S : Order → Prop)
    (hweak : ∀ a b c, S a → S b → S c → lt a c = true → lt a b = true ∨ lt b c = true)
    (l : List Order) (idx : ℕ) (hS : ∀ y ∈ l, S y) (hv : Valid lt l) :
    DownOK lt l idx := by
  refine ⟨fun j hj0 hjlen _ => hv j hjlen hj0, ?_⟩
  intro j hjlen hpj h0
  have hj0 : 0 < j := by
    rcases Nat.eq_zero_or_pos j with hz | hz
    · rw [hz] at hpj
      rw [show par 0 = 0 from rfl] at hpj
      omega
    · exact hz
  have hidxlen : idx < l.length := by
    have := par_lt j hj0
    rw [hpj] at this
    omega
  have hplen : par idx < l.length := lt_trans (par_lt idx h0) hidxlen
  refine notLt_trans lt S hweak _ _ _ (hS _ (gOrd_mem l j hjlen))
    (hS _ (gOrd_mem l idx hidxlen)) (hS _ (gOrd_mem l (par idx) hplen)) ?_ ?_
  · have := hv j hjlen hj0
    rw [hpj] at this
    exact this
  · exact hv idx hidxlen h0

/-- `removeById` preserves the heap invariant. -/
theorem removeById_valid (lt : Order → Order → Bool)
    (hasymm : ∀ a b, lt a b = true → lt b a = false)
    (htrans : ∀ a b c, lt a b = true → lt b c = true → lt a c = true)
    (S : Order → Prop)
    (hweak : ∀ a b c, S a → S b → S c → lt a c = true → lt a b = true ∨ lt b c = true)
    (idv : String) (l : List Order) (hS : ∀ y ∈ l, S y) (hv : Valid lt l) :
    Valid lt (removeById lt idv l).2 := by
  cases hf : l.findIdx? (fun o => o.id == idv) with
  | none =>
    rw [removeById, hf]
    exact hv
  | some idx =>
    have hidx : idx < l.length := by
      rcases List.findIdx?_eq_some_iff_getElem.1 hf with ⟨hlen, _, _⟩
      exact hlen
    rw [removeById_eq_of_found lt idv l idx hf]
    by_cases hcase : idx < l.dropLast.length
    · rw [if_pos hcase]
      have hdlen : l.dropLast.length = l.length - 1 := by simp
      have hmem0 : ∀ y ∈ (l.dropLast.set idx (l.getLast?.getD default)), S y := by
        intro y hy
        have hperm := fill_hole_perm l idx (by omega)
        exact hS y (hperm.mem_iff.1 (List.mem_cons_of_mem _ hy))
      have hval0 : ∀ j, j ≠ idx → j < l.length - 1 →
          gOrd (l.dropLast.set idx (l.getLast?.getD default)) j = gOrd l j := by
        intro j hjne hjl
        rw [gOrd_set_ne _ _ _ _ (fun hc => hjne hc.symm), gOrd_dropLast _ _ hjl]
      have hlen0 : (l.dropLast.set idx (l.getLast?.getD default)).length = l.length - 1 := by
        simp
      by_cases hup : idx ≠ 0 ∧
          lt (gOrd (l.dropLast.set idx (l.getLast?.getD default)) idx)
            (gOrd (l.dropLast.set idx (l.getLast?.getD default)) (par idx)) = true
      · -- the replacement sifts up; afterwards the array is fully valid and
        -- the subsequent bubbleDown is applied to a valid array
        have hvup : Valid lt (bubbleUp lt (l.dropLast.set idx (l.getLast?.getD default)) idx) := by
          refine bubbleUp_valid lt hasymm htrans S hweak _ _ hmem0 ⟨by omega, ?_, ?_⟩
          · intro j hj0 hjlen hjne
            rw [hlen0] at hjlen
            by_cases hpji : par j = idx
            · -- children of the hole: bounded by the old entry, hence by anything
              -- the old entry was below, and by the new entry via transitivity
              rw [hval0 j hjne hjlen, hpji, gOrd_set_self _ _ _ hcase]
              have h0idx : 0 < idx := Nat.pos_of_ne_zero hup.1
              have hplen : par idx < l.length := by
                have := par_lt idx h0idx
                omega
              by_cases hc : lt (gOrd l j) (l.getLast?.getD default) = true
              · exfalso
                have hup2 := hup.2
                rw [gOrd_set_self _ _ _ (by omega),
                  hval0 (par idx) (by have := par_lt idx h0idx; omega)
                    (by have := par_lt idx h0idx; omega)] at hup2
                have h3 := htrans _ _ _ hc hup2
                have h4 : lt (gOrd l j) (gOrd l idx) = false := by
                  have := hv j (by omega) hj0
                  rw [hpji] at this
                  exact this
                have h5 : lt (gOrd l idx) (gOrd l (par idx)) = false :=
                  hv idx hidx h0idx
                have h6 := notLt_trans lt S hweak _ _ _
                  (hS _ (gOrd_mem l j (by omega))) (hS _ (gOrd_mem l idx hidx))
                  (hS _ (gOrd_mem l (par idx) hplen)) h4 h5
                rw [h3] at h6
                exact absurd h6 (by simp)
              · simpa using hc
            · rw [hval0 j hjne hjlen, hval0 (par j) hpji (by
                have := par_lt j hj0
                omega)]
              exact hv j (by omega) hj0
          · intro j hjlen hpj h0
            rw [hlen0] at hjlen
            have h0idx : 0 < idx := h0
            have hplen : par idx < l.length := by
              have := par_lt idx h0idx
              omega
            have hjne : j ≠ idx := by
              intro hc
              rw [hc] at hpj
              have := par_lt idx h0idx
              omega
            rw [hval0 j hjne hjlen, hval0 (par idx)
              (by have := par_lt idx h0idx; omega)
              (by have := par_lt idx h0idx; omega)]
            have h4 : lt (gOrd l j) (gOrd l idx) = false := by
              have hj0 : 0 < j := by
                rcases Nat.eq_zero_or_pos j with hz | hz
                · rw [hz] at hpj
                  rw [show par 0 = 0 from rfl] at hpj
                  omega
                · exact hz
              have := hv j (by omega) hj0
              rw [hpj] at this
              exact this
            have h5 : lt (gOrd l idx) (gOrd l (par idx)) = false := hv idx hidx h0idx
            exact notLt_trans lt S hweak _ _ _
              (hS _ (gOrd_mem l j (by omega))) (hS _ (gOrd_mem l idx hidx))
              (hS _ (gOrd_mem l (par idx) hplen)) h4 h5
        refine bubbleDown_valid lt hasymm htrans _ idx
          (valid_to_DownOK lt S hweak _ idx ?_ hvup)
        intro y hy
        have hperm := bubbleUp_perm lt (l.dropLast.set idx (l.getLast?.getD default)) idx
          (by omega)
        exact hmem0 y (hperm.mem_iff.1 hy)
      · -- no sift-up occurs; the array is a valid heap except below the hole
        have hnoup : bubbleUp lt (l.dropLast.set idx (l.getLast?.getD default)) idx =
            l.dropLast.set idx (l.getLast?.getD default) := by
          rw [bubbleUp]
          by_cases h0 : idx = 0
          · rw [dif_pos h0]
          · rw [dif_neg h0]
            have : ¬ lt (gOrd (l.dropLast.set idx (l.getLast?.getD default)) idx)
                (gOrd (l.dropLast.set idx (l.getLast?.getD default)) (par idx)) = true := by
              intro hc
              exact hup ⟨h0, hc⟩
            rw [if_neg this]
        rw [hnoup]
        refine bubbleDown_valid lt hasymm htrans _ idx ⟨?_, ?_⟩
        · intro j hj0 hjlen hpjne
          rw [hlen0] at hjlen
          by_cases hji : j = idx
          · -- the up-edge of the hole holds because the sift-up guard failed
            rcases Nat.eq_zero_or_pos idx with hz | hz
            · omega
            · by_cases hc : lt (gOrd (l.dropLast.set idx (l.getLast?.getD default)) idx)
                  (gOrd (l.dropLast.set idx (l.getLast?.getD default)) (par idx)) = true
              · exact absurd ⟨by omega, hc⟩ hup
              · rw [hji]
                simpa using hc
          · rw [hval0 j hji hjlen, hval0 (par j) hpjne (by
              have := par_lt j hj0
              omega)]
            exact hv j (by omega) hj0
        · intro j hjlen hpj h0
          rw [hlen0] at hjlen
          have hplen : par idx < l.length := by
            have := par_lt idx h0
            omega
          have hjne : j ≠ idx := by
            intro hc
            rw [hc] at hpj
            have := par_lt idx h0
            omega
          rw [hval0 j hjne hjlen, hval0 (par idx)
            (by have := par_lt idx h0; omega)
            (by have := par_lt idx h0; omega)]
          have hj0 : 0 < j := by
            rcases Nat.eq_zero_or_pos j with hz | hz
            · rw [hz] at hpj
              rw [show par 0 = 0 from rfl] at hpj
              omega
            · exact hz
          have h4 : lt (gOrd l j) (gOrd l idx) = false := by
            have := hv j (by omega) hj0
            rw [hpj] at this
            exact this
          have h5 : lt (gOrd l idx) (gOrd l (par idx)) = false := hv idx hidx h0
          exact notLt_trans lt S hweak _ _ _
            (hS _ (gOrd_mem l j (by omega))) (hS _ (gOrd_mem l idx hidx))
            (hS _ (gOrd_mem l (par idx) hplen)) h4 h5
    · rw [if_neg hcase]
      exact valid_dropLast lt l hv

/-- Rewriting one entry with an `lt`-equivalent one preserves the invariant;
used for `updateQuantity`, whose ordering ignores quantity. -/
theorem valid_set_key (lt : Order → Order → Bool) (l : List Order) (i : ℕ) (v : Order)
    (hi : i < l.length)
    (h1 : ∀ b, lt v b = lt (gOrd l i) b) (h2 : ∀ b, lt b v = lt b (gOrd l i))
    (hv : Valid lt l) : Valid lt (l.set i v) := by
  intro j hj hj0
  rw [List.length_set] at hj
  by_cases hji : j = i
  · have h0i : 0 < i := hji ▸ hj0
    have hpne : i ≠ par i := by
      have := par_lt i h0i
      omega
    rw [hji, gOrd_set_self l i v hi, gOrd_set_ne l i (par i) v hpne, h1]
    exact hv i hi h0i
  · rw [gOrd_set_ne l i j v (fun hc => hji hc.symm)]
    by_cases hpi : par j = i
    · rw [hpi, gOrd_set_self l i v hi, h2, ← hpi]
      exact hv j hj hj0
    · rw [gOrd_set_ne l i (par j) v (fun hc => hpi hc.symm)]
      exact hv j hj hj0

theorem bidLt_qtySet_left (a b : Order) (q : ℚ) : bidLt (qtySet a q) b = bidLt a b := rfl

theorem bidLt_qtySet_right (a b : Order) (q : ℚ) : bidLt b (qtySet a q) = bidLt b a := rfl

theorem askLt_qtySet_left (a b : Order) (q : ℚ) : askLt (qtySet a q) b = askLt a b := rfl

theorem askLt_qtySet_right (a b : Order) (q : ℚ) : askLt b (qtySet a q) = askLt b a := rfl

/-- Root minimality: in a valid heap every element sorts no earlier than the
root, i.e. `peek()` really returns a best element. -/
theorem valid_root_min (lt : Order → Order → Bool)
    (hasymm : ∀ a b, lt a b = true → lt b a = false)
    (S : Order → Prop)
    (hweak : ∀ a b c, S a → S b → S c → lt a c = true → lt a b = true ∨ lt b c = true)
    (l : List Order) (hS : ∀ y ∈ l, S y) (hv : Valid lt l) :
    ∀ x ∈ l, lt x (gOrd l 0) = false := by
  have hidx : ∀ i, i < l.length → lt (gOrd l i) (gOrd l 0) = false := by
    intro i
    induction i using Nat.strong_induction_on with
    | _ i ih =>
      intro hi
      rcases Nat.eq_zero_or_pos i with h0 | h0
      · rw [h0]
        by_cases hc : lt (gOrd l 0) (gOrd l 0) = true
        · have hf := hasymm _ _ hc
          rw [hc] at hf
          exact absurd hf (by simp)
        · simpa using hc
      · have hpar := hv i hi h0
        have hplt : par i < l.length := lt_trans (par_lt i h0) hi
        have hp := ih (par i) (par_lt i h0) hplt
        have h0len : 0 < l.length := by omega
        exact notLt_trans lt S hweak _ _ _ (hS _ (gOrd_mem l i hi))
          (hS _ (gOrd_mem l (par i) hplt)) (hS _ (gOrd_mem l 0 h0len)) hpar hp
  intro x hx
  rcases List.mem_iff_getElem.1 hx with ⟨i, hi, rfl⟩
  rw [← gOrd_eq_getElem l i hi]
  exact hidx i hi

/-! ## Tick arithmetic: quantities of well-formed books are exact multiples
of the quantity tick, on which `#round` is the identity. -/

/-- `q` is an integer multiple of `10 ^ (-d)`. -/
def isTick (q : ℚ) (d : ℕ) : Prop := ∃ k : ℤ, q = (k : ℚ) / 10 ^ d

instance (q : ℚ) (d : ℕ) : Decidable (isTick q d) :=
  decidable_of_iff ((q * 10 ^ d).den = 1) (by
    constructor
    · intro h
      refine ⟨(q * 10 ^ d).num, ?_⟩
      have h2 : ((q * 10 ^ d).num : ℚ) = q * 10 ^ d := by
        rw [← Rat.den_eq_one_iff]
        exact h
      rw [h2]
      field_simp
    · rintro ⟨k, rfl⟩
      have hpow : (10 : ℚ) ^ d ≠ 0 := by positivity
      rw [div_mul_cancel₀ _ hpow]
      exact Rat.den_intCast k)

theorem isTick_zero (d : ℕ) : isTick 0 d := ⟨0, by simp⟩

theorem isTick_sub (a b : ℚ) (d : ℕ) (ha : isTick a d) (hb : isTick b d) :
    isTick (a - b) d := by
  rcases ha with ⟨j, rfl⟩
  rcases hb with ⟨k, rfl⟩
  exact ⟨j - k, by push_cast; ring⟩

theorem isTick_min (a b : ℚ) (d : ℕ) (ha : isTick a d) (hb : isTick b d) :
    isTick (min a b) d := by
  rcases le_total a b with h | h
  · rw [min_eq_left h]
    exact ha
  · rw [min_eq_right h]
    exact hb

theorem rnd_tick (x : ℚ) (d : ℕ) (h : isTick x d) : rnd x d = x := by
  rcases h with ⟨k, rfl⟩
  have hpow : (0 : ℚ) < 10 ^ d := by positivity
  unfold rnd
  have hhalf : (⌊(1 : ℚ) / 2⌋ : ℤ) = 0 := by norm_num
  by_cases hx : (0 : ℚ) ≤ (k : ℚ) / 10 ^ d
  · rw [if_pos hx, div_mul_cancel₀ _ (ne_of_gt hpow), Int.floor_int_add, hhalf, add_zero]
  · rw [if_neg hx]
    have harg : -((k : ℚ) / 10 ^ d) * 10 ^ d + 1 / 2 = ((-k : ℤ) : ℚ) + 1 / 2 := by
      push_cast
      field_simp
      ring
    rw [harg, Int.floor_int_add, hhalf, add_zero]
    push_cast
    ring

theorem isTick_rnd (x : ℚ) (d : ℕ) : isTick (rnd x d) d := by
  unfold rnd
  by_cases hx : (0 : ℚ) ≤ x
  · rw [if_pos hx]
    exact ⟨⌊x * 10 ^ d + 1 / 2⌋, rfl⟩
  · rw [if_neg hx]
    exact ⟨-⌊-x * 10 ^ d + 1 / 2⌋, by push_cast; ring⟩

/-- The comparator laws the heap lemmas need, packaged; both JS comparators
satisfy them (the weak-order law on orders that carry a price). -/
structure LtOps (lt : Order → Order → Bool) : Prop where
  asymm : ∀ a b, lt a b = true → lt b a = false
  trans : ∀ a b c, lt a b = true → lt b c = true → lt a c = true
  weak : ∀ a b c, somePrice a → somePrice b → somePrice c →
    lt a c = true → lt a b = true ∨ lt b c = true
  qtyL : ∀ a q b, lt (qtySet a q) b = lt a b
  qtyR : ∀ a q b, lt b (qtySet a q) = lt b a

theorem bidLt_ops : LtOps bidLt :=
  ⟨bidLt_asymm, bidLt_trans, bidLt_weak,
    fun a q b => bidLt_qtySet_left a b q, fun a q b => bidLt_qtySet_right a b q⟩

theorem askLt_ops : LtOps askLt :=
  ⟨askLt_asymm, askLt_trans, askLt_weak,
    fun a q b => askLt_qtySet_left a b q, fun a q b => askLt_qtySet_right a b q⟩

theorem oppLtOf_ops (s : Side) : LtOps (oppLtOf s) := by
  cases s
  · exact askLt_ops
  · exact bidLt_ops

theorem sameLtOf_ops (s : Side) : LtOps (sameLtOf s) := by
  cases s
  · exact bidLt_ops
  · exact askLt_ops

/-- The invariant the matching loop maintains about its own state. -/
structure MatchInv (lt : Order → Order → Bool) (d : ℕ) (st : MSt) : Prop where
  valid : Valid lt st.opp
  good : ∀ x ∈ st.opp, somePrice x ∧ 0 < x.quantity ∧ isTick x.quantity d
  remTick : isTick st.rem.quantity d

theorem updateQuantity_peek (l : List Order) (q : ℚ) (h : l ≠ []) :
    updateQuantity (gOrd l 0).id q l = l.set 0 (qtySet (gOrd l 0) q) := by
  cases l with
  | nil => exact absurd rfl h
  | cons a t =>
    unfold updateQuantity
    rw [List.findIdx?_cons]
    have hpa : (a.id == (gOrd (a :: t) 0).id) = true := by
      rw [gOrd_cons_zero]
      simp
    rw [if_pos hpa]
    rfl

theorem set_zero_cons (a v : Order) (t : List Order) : (a :: t).set 0 v = v :: t := rfl

theorem valid_set_peek (lt : Order → Order → Bool) (hops : LtOps lt) (l : List Order)
    (q : ℚ) (h : l ≠ []) (hv : Valid lt l) :
    Valid lt (l.set 0 (qtySet (gOrd l 0) q)) := by
  refine valid_set_key lt l 0 (qtySet (gOrd l 0) q) ?_ ?_ ?_ hv
  · cases l with
    | nil => exact absurd rfl h
    | cons a t => simp
  · intro b
    exact hops.qtyL _ _ _
  · intro b
    exact hops.qtyR _ _ _

theorem mem_set_zero (l : List Order) (v x : Order) (h : l ≠ [])
    (hx : x ∈ l.set 0 v) : x = v ∨ x ∈ l.tail := by
  cases l with
  | nil => exact absurd rfl h
  | cons a t =>
    rw [set_zero_cons] at hx
    rcases List.mem_cons.1 hx with rfl | hm
    · exact Or.inl rfl
    · exact Or.inr hm

/-- One guarded iteration of the matching loop preserves the invariant and
either shrinks the opposing heap or zeroes the aggressor remainder. -/
theorem matchStep_main (lt : Order → Order → Bool) (hops : LtOps lt) (pair : String)
    (qPrec : ℕ) (now : ℤ) (oldLog : List Trade) (st : MSt)
    (hinv : MatchInv lt qPrec st) (hcond : matchCond st = true) :
    MatchInv lt qPrec (matchStep lt pair qPrec now oldLog st) ∧
      ((matchStep lt pair qPrec now oldLog st).opp.length + 1 = st.opp.length ∨
        (matchStep lt pair qPrec now oldLog st).rem.quantity = 0) := by
  obtain ⟨hr, hop⟩ := matchCond_true st hcond
  obtain ⟨hbp, hbq, hbt⟩ := hinv.good (gOrd st.opp 0) (gOrd_zero_mem st.opp hop)
  have htq : rnd (min st.rem.quantity (gOrd st.opp 0).quantity) qPrec =
      min st.rem.quantity (gOrd st.opp 0).quantity :=
    rnd_tick _ _ (isTick_min _ _ _ hinv.remTick hbt)
  have hnewb : rnd ((gOrd st.opp 0).quantity -
      rnd (min st.rem.quantity (gOrd st.opp 0).quantity) qPrec) qPrec =
      (gOrd st.opp 0).quantity - min st.rem.quantity (gOrd st.opp 0).quantity := by
    rw [htq]
    exact rnd_tick _ _ (isTick_sub _ _ _ hbt (isTick_min _ _ _ hinv.remTick hbt))
  have hnewr : rnd (st.rem.quantity -
      rnd (min st.rem.quantity (gOrd st.opp 0).quantity) qPrec) qPrec =
      st.rem.quantity - min st.rem.quantity (gOrd st.opp 0).quantity := by
    rw [htq]
    exact rnd_tick _ _ (isTick_sub _ _ _ hinv.remTick (isTick_min _ _ _ hinv.remTick hbt))
  have hsetlen : (st.opp.set 0 (qtySet (gOrd st.opp 0)
      (rnd ((gOrd st.opp 0).quantity -
        rnd (min st.rem.quantity (gOrd st.opp 0).quantity) qPrec) qPrec))).length =
      st.opp.length := List.length_set _ _ _
  unfold matchStep
  by_cases hz : rnd ((gOrd st.opp 0).quantity -
      rnd (min st.rem.quantity (gOrd st.opp 0).quantity) qPrec) qPrec = 0
  · rw [if_pos hz]
    have hsetne : st.opp.set 0 (qtySet (gOrd st.opp 0)
        (rnd ((gOrd st.opp 0).quantity -
          rnd (min st.rem.quantity (gOrd st.opp 0).quantity) qPrec) qPrec)) ≠ [] := by
      intro hc
      have := congrArg List.length hc
      rw [hsetlen] at this
      simp at this
      exact hop this
    refine ⟨⟨?_, ?_, ?_⟩, Or.inl ?_⟩
    · exact extractTop_valid lt hops.asymm hops.trans _
        (valid_set_peek lt hops st.opp _ hop hinv.valid)
    · intro x hx
      exact hinv.good x (List.mem_of_mem_tail (extract_set_track lt _ _ _ hx))
    · show isTick (rnd (st.rem.quantity -
        rnd (min st.rem.quantity (gOrd st.opp 0).quantity) qPrec) qPrec) qPrec
      exact isTick_rnd _ _
    · show (extractTop lt (st.opp.set 0 (qtySet (gOrd st.opp 0)
        (rnd ((gOrd st.opp 0).quantity -
          rnd (min st.rem.quantity (gOrd st.opp 0).quantity) qPrec) qPrec)))).2.length + 1 =
        st.opp.length
      have hperm := extractTop_perm lt _ hsetne
      have hlen := hperm.length_eq
      rw [List.length_tail, hsetlen] at hlen
      have hpos : 0 < st.opp.length := by
        cases hc : st.opp with
        | nil => exact absurd hc hop
        | cons a t => simp
      omega
  · rw [if_neg hz]
    rw [updateQuantity_peek st.opp _ hop]
    have hminr : min st.rem.quantity (gOrd st.opp 0).quantity = st.rem.quantity := by
      rw [hnewb] at hz
      rcases le_total st.rem.quantity (gOrd st.opp 0).quantity with h | h
      · exact min_eq_left h
      · exfalso
        apply hz
        rw [min_eq_right h]
        ring
    refine ⟨⟨?_, ?_, ?_⟩, Or.inr ?_⟩
    · exact valid_set_peek lt hops st.opp _ hop hinv.valid
    · intro x hx
      rcases mem_set_zero st.opp _ x hop hx with rfl | hm
      · refine ⟨hbp, ?_, ?_⟩
        · show 0 < rnd ((gOrd st.opp 0).quantity -
            rnd (min st.rem.quantity (gOrd st.opp 0).quantity) qPrec) qPrec
          rw [hnewb]
          have hle : min st.rem.quantity (gOrd st.opp 0).quantity ≤
              (gOrd st.opp 0).quantity := min_le_right _ _
          rw [hnewb] at hz
          rcases lt_or_eq_of_le hle with hlt2 | heq
          · linarith
          · exfalso
            exact hz (by rw [heq]; ring)
        · show isTick (rnd ((gOrd st.opp 0).quantity -
            rnd (min st.rem.quantity (gOrd st.opp 0).quantity) qPrec) qPrec) qPrec
          exact isTick_rnd _ _
      · exact hinv.good x (List.mem_of_mem_tail hm)
    · show isTick (rnd (st.rem.quantity -
        rnd (min st.rem.quantity (gOrd st.opp 0).quantity) qPrec) qPrec) qPrec
      exact isTick_rnd _ _
    · show rnd (st.rem.quantity -
        rnd (min st.rem.quantity (gOrd st.opp 0).quantity) qPrec) qPrec = 0
      rw [hnewr, hminr]
      ring

/-- Invariant preservation and loop exit: fuel `opposing size + 1` — the fuel
`addOrder` uses — always suffices on invariant states, because every guarded
iteration either extracts a resting order or zeroes the remainder. -/
theorem matchLoop_main (lt : Order → Order → Bool) (hops : LtOps lt) (pair : String)
    (qPrec : ℕ) (now : ℤ) (oldLog : List Trade) :
    ∀ fuel st, MatchInv lt qPrec st → st.opp.length + 1 ≤ fuel →
      MatchInv lt qPrec (matchLoop lt pair qPrec now oldLog fuel st) ∧
      (matchCond (matchLoop lt pair qPrec now oldLog fuel st) &&
        priceOK (matchLoop lt pair qPrec now oldLog fuel st).rem
          (gOrd (matchLoop lt pair qPrec now oldLog fuel st).opp 0)) = false := by
  intro fuel
  induction fuel with
  | zero =>
    intro st _ hf
    omega
  | succ n ih =>
    intro st hinv hf
    by_cases hg : (matchCond st && priceOK st.rem (gOrd st.opp 0)) = true
    · rw [matchLoop, if_pos hg]
      have hcond : matchCond st = true := (Bool.and_eq_true_iff.1 hg).1
      obtain ⟨hinv', hdec⟩ := matchStep_main lt hops pair qPrec now oldLog st hinv hcond
      rcases hdec with hlen | hzero
      · exact ih (matchStep lt pair qPrec now oldLog st) hinv' (by omega)
      · have hstop : (matchCond (matchStep lt pair qPrec now oldLog st) &&
            priceOK (matchStep lt pair qPrec now oldLog st).rem
              (gOrd (matchStep lt pair qPrec now oldLog st).opp 0)) = false := by
          unfold matchCond
          rw [hzero]
          simp
        rw [matchLoop_stop lt pair qPrec now oldLog n _ hstop]
        exact ⟨hinv', hstop⟩
    · rw [matchLoop_stop lt pair qPrec now oldLog (n + 1) st (by simpa using hg)]
      exact ⟨hinv, by simpa using hg⟩

/-! ## Well-formed books -/

/-- All-pairs uncrossedness: every bid price sits strictly below every ask
price. -/
def uncrossed (b : Book) : Prop :=
  ∀ ob ∈ b.bids, ∀ oa ∈ b.asks, pv ob.price < pv oa.price

/-- The invariant of reachable books: both heap arrays satisfy the heap
ordering, all resting orders carry a price, a positive tick-multiple
quantity and an Open/PartiallyFilled status, and the book is uncrossed. -/
def WF (b : Book) : Prop :=
  Valid bidLt b.bids ∧ Valid askLt b.asks ∧
  (∀ x ∈ b.bids, somePrice x ∧ 0 < x.quantity ∧ isTick x.quantity b.quantityPrecision ∧
    (x.status = Status.open_ ∨ x.status = Status.partiallyFilled)) ∧
  (∀ x ∈ b.asks, somePrice x ∧ 0 < x.quantity ∧ isTick x.quantity b.quantityPrecision ∧
    (x.status = Status.open_ ∨ x.status = Status.partiallyFilled)) ∧
  uncrossed b

theorem runMatch_main (o : RawOrder) (now : ℤ) (b : Book) (hWF : WF b) :
    MatchInv (oppLtOf (normalise b o now).side) b.quantityPrecision (runMatch o now b) ∧
    (matchCond (runMatch o now b) &&
      priceOK (runMatch o now b).rem (gOrd (runMatch o now b).opp 0)) = false := by
  obtain ⟨hvb, hva, hgb, hga, hunc⟩ := hWF
  have h0 : MatchInv (oppLtOf (normalise b o now).side) b.quantityPrecision
      { rem := normalise b o now, opp := oppOf b (normalise b o now).side,
        trades := [], evs := [] } := by
    refine ⟨?_, ?_, ?_⟩
    · cases hside : (normalise b o now).side
      · exact hva
      · exact hvb
    · cases hside : (normalise b o now).side
      · intro x hx
        obtain ⟨h1, h2, h3, _⟩ := hga x hx
        exact ⟨h1, h2, h3⟩
      · intro x hx
        obtain ⟨h1, h2, h3, _⟩ := hgb x hx
        exact ⟨h1, h2, h3⟩
    · exact isTick_rnd _ _
  exact matchLoop_main (oppLtOf (normalise b o now).side)
    (oppLtOf_ops (normalise b o now).side) b.pair b.quantityPrecision now b.trades
    ((oppOf b (normalise b o now).side).length + 1)
    { rem := normalise b o now, opp := oppOf b (normalise b o now).side,
      trades := [], evs := [] } h0 (le_refl _)

/-! ## Snapshot rebuild (claim C3) -/

theorem gOrd_take (l : List Order) (n j : ℕ) (h : j < n) :
    gOrd (l.take n) j = gOrd l j := by
  unfold gOrd
  rw [List.getD_eq_getElem?_getD, List.getD_eq_getElem?_getD, List.getElem?_take_of_lt h]

/-- Inserting the entries of a valid heap array, in array order, into a fresh
heap reproduces the array exactly: every prefix of a valid heap array is a
valid heap, so each `insert`'s sift-up stops immediately. -/
theorem rebuild_eq (lt : Order → Order → Bool) (l : List Order) (hv : Valid lt l) :
    rebuild lt l = l := by
  have key : ∀ n, n ≤ l.length → (l.take n).foldl (hinsert lt) [] = l.take n := by
    intro n
    induction n with
    | zero => intro _; simp
    | succ m ih =>
      intro hm
      have hmlt : m < l.length := by omega
      have hlen : (l.take m).length = m := List.length_take_of_le (by omega)
      have htake : l.take (m + 1) = l.take m ++ [gOrd l m] := by
        rw [← List.take_concat_get l m hmlt]
        simp [List.concat_eq_append, gOrd_eq_getElem l m hmlt]
      rw [htake, List.foldl_append, ih (by omega)]
      show hinsert lt (l.take m) (gOrd l m) = l.take m ++ [gOrd l m]
      unfold hinsert
      rw [hlen]
      rw [bubbleUp]
      by_cases hm0 : m = 0
      · rw [dif_pos hm0]
      · rw [dif_neg hm0]
        have hedge : lt (gOrd (l.take m ++ [gOrd l m]) m)
            (gOrd (l.take m ++ [gOrd l m]) (par m)) = false := by
          have hg1 : gOrd (l.take m ++ [gOrd l m]) m = gOrd l m := by
            have hx := gOrd_append_last (l.take m) (gOrd l m)
            rw [hlen] at hx
            exact hx
          have hparm : par m < m := par_lt m (Nat.pos_of_ne_zero hm0)
          have hg2 : gOrd (l.take m ++ [gOrd l m]) (par m) = gOrd l (par m) := by
            rw [gOrd_append _ _ _ (by rw [hlen]; omega), gOrd_take l m (par m) hparm]
          rw [hg1, hg2]
          exact hv m hmlt (Nat.pos_of_ne_zero hm0)
        rw [if_neg (by rw [hedge]; simp)]
  have := key l.length (le_refl _)
  rw [List.take_length] at this
  exact this

/-- The comparison key of claim C3. -/
def orderKey (o : Order) : String × Option ℚ × ℚ × ℤ × Side :=
  (o.id, o.price, o.quantity, o.timestamp, o.side)

/-- **C3.** Loading the snapshot of a book whose heaps satisfy the heap
invariant into a fresh book with the same pair and precisions succeeds and
reproduces the heap arrays exactly — hence identical best bid, best ask and
spread, and the same multisets of resting orders under
`(id, price, quantity, timestamp, side)`. -/
theorem claim_C3 (b : Book) (now : ℤ)
    (hbids : Valid bidLt b.bids) (hasks : Valid askLt b.asks) :
    ∃ b', loadSnapshot (getSnapshot now b)
        (Book.fresh b.pair b.pricePrecision b.quantityPrecision) = Except.ok b' ∧
      bestBid b' = bestBid b ∧ bestAsk b' = bestAsk b ∧ spread b' = spread b ∧
      (↑(b'.bids.map orderKey) : Multiset (String × Option ℚ × ℚ × ℤ × Side)) =
        ↑(b.bids.map orderKey) ∧
      (↑(b'.asks.map orderKey) : Multiset (String × Option ℚ × ℚ × ℤ × Side)) =
        ↑(b.asks.map orderKey) := by
  have hload : loadSnapshot (getSnapshot now b)
      (Book.fresh b.pair b.pricePrecision b.quantityPrecision) =
      Except.ok { Book.fresh b.pair b.pricePrecision b.quantityPrecision with
        bids := rebuild bidLt b.bids, asks := rebuild askLt b.asks } := by
    unfold loadSnapshot
    rw [if_neg (by
      show ¬ (getSnapshot now b).pair ≠ (Book.fresh b.pair b.pricePrecision
        b.quantityPrecision).pair
      intro hc
      exact hc rfl)]
    rfl
  rw [hload]
  refine ⟨_, rfl, ?_, ?_, ?_, ?_, ?_⟩
  · show (rebuild bidLt b.bids).head? = b.bids.head?
    rw [rebuild_eq bidLt b.bids hbids]
  · show (rebuild askLt b.asks).head? = b.asks.head?
    rw [rebuild_eq askLt b.asks hasks]
  · unfold spread bestBid bestAsk
    show (match (rebuild bidLt b.bids).head?, (rebuild askLt b.asks).head? with
      | some bb, some aa => some (rnd (pv aa.price - pv bb.price) b.pricePrecision)
      | _, _ => none) = _
    rw [rebuild_eq bidLt b.bids hbids, rebuild_eq askLt b.asks hasks]
  · show (↑((rebuild bidLt b.bids).map orderKey) :
        Multiset (String × Option ℚ × ℚ × ℤ × Side)) = ↑(b.bids.map orderKey)
    rw [rebuild_eq bidLt b.bids hbids]
  · show (↑((rebuild askLt b.asks).map orderKey) :
        Multiset (String × Option ℚ × ℚ × ℤ × Side)) = ↑(b.asks.map orderKey)
    rw [rebuild_eq askLt b.asks hasks]

def c3bid : Order :=
  { id := "b1", side := Side.buy, type := OType.limit, price := some 90,
    quantity := 2, peerId := none, timestamp := 5, status := Status.open_ }

def c3ask1 : Order :=
  { id := "a1", side := Side.sell, type := OType.limit, price := some 100,
    quantity := 1, peerId := none, timestamp := 1, status := Status.open_ }

def c3ask2 : Order :=
  { id := "a2", side := Side.sell, type := OType.limit, price := some 100,
    quantity := 3, peerId := none, timestamp := 2, status := Status.open_ }

def c3book : Book :=
  { pair := "P", pricePrecision := 2, quantityPrecision := 8,
    bids := [c3bid], asks := [c3ask1, c3ask2], trades := [] }

theorem claim_C3_witness :
    ∃ b', loadSnapshot (getSnapshot 7 c3book)
        (Book.fresh c3book.pair c3book.pricePrecision c3book.quantityPrecision) =
          Except.ok b' ∧
      bestBid b' = bestBid c3book ∧ bestAsk b' = bestAsk c3book ∧
      spread b' = spread c3book ∧
      (↑(b'.bids.map orderKey) : Multiset (String × Option ℚ × ℚ × ℤ × Side)) =
        ↑(c3book.bids.map orderKey) ∧
      (↑(b'.asks.map orderKey) : Multiset (String × Option ℚ × ℚ × ℤ × Side)) =
        ↑(c3book.asks.map orderKey) :=
  claim_C3 c3book 7 (by with_unfolding_all decide) (by with_unfolding_all decide)

/-! ## Claim C2: the book stays uncrossed -/

theorem askLt_false_price (x r : Order) (h : askLt x r = false) :
    pv r.price ≤ pv x.price := by
  unfold askLt at h
  by_cases hp : x.price = r.price
  · rw [pv_congr x r hp]
  · rw [if_neg hp] at h
    simp only [decide_eq_false_iff_not] at h
    linarith

theorem bidLt_false_price (x r : Order) (h : bidLt x r = false) :
    pv x.price ≤ pv r.price := by
  unfold bidLt at h
  by_cases hp : x.price = r.price
  · rw [pv_congr x r hp]
  · rw [if_neg hp] at h
    simp only [decide_eq_false_iff_not] at h
    linarith

theorem priceOK_limit (rem best : Order) (ht : rem.type = OType.limit) :
    priceOK rem best =
      (match rem.side with
        | Side.buy => decide (pv best.price ≤ pv rem.price)
        | Side.sell => decide (pv rem.price ≤ pv best.price)) := by
  unfold priceOK
  rw [ht]

theorem runMatch_rem_fields (o : RawOrder) (now : ℤ) (b : Book) :
    (runMatch o now b).rem.side = (normalise b o now).side ∧
    (runMatch o now b).rem.type = (normalise b o now).type ∧
    (runMatch o now b).rem.price = (normalise b o now).price := by
  rcases runMatch_rem o now b with ⟨q, hq⟩
  rw [hq]
  exact ⟨rfl, rfl, rfl⟩

/-- If an uncrossed aggressor residual rests, the final book is uncrossed in
the all-pairs sense.  The main workhorse behind claim C2 for `addOrder`. -/
theorem addOrder_uncrossed (o : RawOrder) (now : ℤ) (b : Book) (r : AddResult) (b' : Book)
    (evs : List Emit) (hWF : WF b) (h : addOrder o now b = (Except.ok r, b', evs)) :
    ∀ ob ∈ b'.bids, ∀ oa ∈ b'.asks, pv ob.price < pv oa.price := by
  obtain ⟨hv, hval⟩ := addOrder_ok_elim o now b r b' evs h
  obtain ⟨htr, _, _, _, _, hopp, hsame, _, _, _, _⟩ := addOrderValid_spec o now b r b' evs hval
  obtain ⟨hinv, hexit⟩ := runMatch_main o now b hWF
  obtain ⟨hvb, hva, hgb, hga, hunc⟩ := hWF
  obtain ⟨hrs, hrt, hrp⟩ := runMatch_rem_fields o now b
  intro ob hob oa hoa
  cases hside : (normalise b o now).side with
  | buy =>
    rw [hside] at hopp hsame
    have hoa' : oa ∈ (runMatch o now b).opp := by
      rw [show (runMatch o now b).opp = b'.asks from hopp.symm]
      exact hoa
    rcases runMatch_opp_track o now b oa hoa' with ⟨ya, hya, hcya⟩
    rw [hside] at hya
    obtain ⟨_, hpya, _⟩ := sameCore_fields oa ya hcya
    have hbidsof : sameOf b' Side.buy = b'.bids := rfl
    rcases hsame with heq | ⟨hpos, hlim, hins⟩
    · rw [hbidsof] at heq
      have hob' : ob ∈ b.bids := by
        rw [show b.bids = sameOf b Side.buy from rfl, ← heq]
        exact hob
      rw [hpya]
      exact hunc ob hob' ya hya
    · rw [hbidsof] at hins
      rw [hins] at hob
      have hmem := (hinsert_perm (sameLtOf Side.buy) (sameOf b Side.buy)
        (remFin o now b)).mem_iff.1 hob
      rcases List.mem_cons.1 hmem with rfl | hob2
      · -- the inserted remainder: its price is below every surviving ask
        have hopne : (runMatch o now b).opp ≠ [] := by
          intro hc
          rw [hc] at hoa'
          simp at hoa'
        have hmc : matchCond (runMatch o now b) = true := by
          unfold matchCond
          rw [Bool.and_eq_true_iff]
          refine ⟨by simpa using hpos, ?_⟩
          simp [List.isEmpty_iff, hopne]
        have hpof : priceOK (runMatch o now b).rem (gOrd (runMatch o now b).opp 0) = false := by
          rcases Bool.and_eq_false_iff.1 hexit with hx | hx
          · rw [hmc] at hx
            exact absurd hx (by simp)
          · exact hx
        have hlim' : (runMatch o now b).rem.type = OType.limit := hlim
        rw [priceOK_limit _ _ hlim', hrs, hside] at hpof
        simp only [decide_eq_false_iff_not, not_le] at hpof
        have hvx := hinv.valid
        rw [hside] at hvx
        have hroot : ∀ x ∈ (runMatch o now b).opp,
            askLt x (gOrd (runMatch o now b).opp 0) = false := by
          refine valid_root_min askLt askLt_asymm somePrice askLt_weak _ ?_ hvx
          intro y hy
          exact (hinv.good y hy).1
        have hle := askLt_false_price oa _ (hroot oa hoa')
        have hpr : pv (remFin o now b).price = pv (runMatch o now b).rem.price := rfl
        rw [hpr]
        exact lt_of_lt_of_le hpof hle
      · rw [hpya]
        exact hunc ob hob2 ya hya
  | sell =>
    rw [hside] at hopp hsame
    have hob' : ob ∈ (runMatch o now b).opp := by
      rw [show (runMatch o now b).opp = b'.bids from hopp.symm]
      exact hob
    rcases runMatch_opp_track o now b ob hob' with ⟨yb, hyb, hcyb⟩
    rw [hside] at hyb
    obtain ⟨_, hpyb, _⟩ := sameCore_fields ob yb hcyb
    have hasksof : sameOf b' Side.sell = b'.asks := rfl
    rcases hsame with heq | ⟨hpos, hlim, hins⟩
    · rw [hasksof] at heq
      have hoa2 : oa ∈ b.asks := by
        rw [show b.asks = sameOf b Side.sell from rfl, ← heq]
        exact hoa
      rw [hpyb]
      exact hunc yb hyb oa hoa2
    · rw [hasksof] at hins
      rw [hins] at hoa
      have hmem := (hinsert_perm (sameLtOf Side.sell) (sameOf b Side.sell)
        (remFin o now b)).mem_iff.1 hoa
      rcases List.mem_cons.1 hmem with rfl | hoa2
      · have hopne : (runMatch o now b).opp ≠ [] := by
          intro hc
          rw [hc] at hob'
          simp at hob'
        have hmc : matchCond (runMatch o now b) = true := by
          unfold matchCond
          rw [Bool.and_eq_true_iff]
          refine ⟨by simpa using hpos, ?_⟩
          simp [List.isEmpty_iff, hopne]
        have hpof : priceOK (runMatch o now b).rem (gOrd (runMatch o now b).opp 0) = false := by
          rcases Bool.and_eq_false_iff.1 hexit with hx | hx
          · rw [hmc] at hx
            exact absurd hx (by simp)
          · exact hx
        have hlim' : (runMatch o now b).rem.type = OType.limit := hlim
        rw [priceOK_limit _ _ hlim', hrs, hside] at hpof
        simp only [decide_eq_false_iff_not, not_le] at hpof
        have hvx := hinv.valid
        rw [hside] at hvx
        have hroot : ∀ x ∈ (runMatch o now b).opp,
            bidLt x (gOrd (runMatch o now b).opp 0) = false := by
          refine valid_root_min bidLt bidLt_asymm somePrice bidLt_weak _ ?_ hvx
          intro y hy
          exact (hinv.good y hy).1
        have hle := bidLt_false_price ob _ (hroot ob hob')
        have hpr : pv (remFin o now b).price = pv (runMatch o now b).rem.price := rfl
        rw [hpr]
        exact lt_of_le_of_lt hle hpof
      · rw [hpyb]
        exact hunc yb hyb oa hoa2

/-- `cancelOrder` only ever removes resting orders, so all-pairs
uncrossedness survives it. -/
theorem cancelOrder_uncrossed (idv : String) (b : Book)
    (hunc : ∀ ob ∈ b.bids, ∀ oa ∈ b.asks, pv ob.price < pv oa.price) :
    ∀ ob ∈ (cancelOrder idv b).2.1.bids, ∀ oa ∈ (cancelOrder idv b).2.1.asks,
      pv ob.price < pv oa.price := by
  unfold cancelOrder
  rcases hrb : removeById bidLt idv b.bids with ⟨fob, bids'⟩
  cases fob with
  | some o =>
    dsimp only
    intro ob hob oa hoa
    have hp := removeById_some_perm bidLt idv b.bids o (by rw [hrb])
    rw [hrb] at hp
    exact hunc ob (hp.mem_iff.1 (List.mem_cons_of_mem _ hob)) oa hoa
  | none =>
    rcases hra : removeById askLt idv b.asks with ⟨foa, asks'⟩
    cases foa with
    | some o =>
      dsimp only
      intro ob hob oa hoa
      have hp := removeById_some_perm askLt idv b.asks o (by rw [hra])
      rw [hra] at hp
      exact hunc ob hob oa (hp.mem_iff.1 (List.mem_cons_of_mem _ hoa))
    | none =>
      dsimp only
      exact hunc

/-- **C2.** Starting from a well-formed book, after each public operation —
a successful `addOrder`, any `cancelOrder`, and a successful
`loadSnapshot` of the book's own snapshot — whenever both heaps are
non-empty the peeked best bid's price is strictly below the peeked best
ask's price: the book stays uncrossed. -/
theorem claim_C2 (b : Book) (hWF : WF b) :
    (∀ o now r b' evs, addOrder o now b = (Except.ok r, b', evs) →
      b'.bids ≠ [] → b'.asks ≠ [] →
      pv (gOrd b'.bids 0).price < pv (gOrd b'.asks 0).price) ∧
    (∀ idv, (cancelOrder idv b).2.1.bids ≠ [] → (cancelOrder idv b).2.1.asks ≠ [] →
      pv (gOrd (cancelOrder idv b).2.1.bids 0).price <
        pv (gOrd (cancelOrder idv b).2.1.asks 0).price) ∧
    (∀ now b₂ b', b₂.pair = b.pair →
      loadSnapshot (getSnapshot now b) b₂ = Except.ok b' →
      b'.bids ≠ [] → b'.asks ≠ [] →
      pv (gOrd b'.bids 0).price < pv (gOrd b'.asks 0).price) := by
  refine ⟨?_, ?_, ?_⟩
  · intro o now r b' evs h hbne hane
    exact addOrder_uncrossed o now b r b' evs hWF h
      (gOrd b'.bids 0) (gOrd_zero_mem _ hbne) (gOrd b'.asks 0) (gOrd_zero_mem _ hane)
  · intro idv hbne hane
    exact cancelOrder_uncrossed idv b hWF.2.2.2.2
      (gOrd _ 0) (gOrd_zero_mem _ hbne) (gOrd _ 0) (gOrd_zero_mem _ hane)
  · intro now b₂ b' hpair hload hbne hane
    unfold loadSnapshot at hload
    rw [if_neg (by
      show ¬ (getSnapshot now b).pair ≠ b₂.pair
      intro hc
      exact hc hpair.symm)] at hload
    have hb' : b' = { b₂ with bids := rebuild bidLt b.bids, asks := rebuild askLt b.asks } :=
      (Except.ok.inj hload).symm
    rw [hb'] at hbne hane ⊢
    dsimp only at hbne hane ⊢
    rw [rebuild_eq bidLt b.bids hWF.1] at hbne
    rw [rebuild_eq askLt b.asks hWF.2.1] at hane
    rw [rebuild_eq bidLt b.bids hWF.1, rebuild_eq askLt b.asks hWF.2.1]
    exact hWF.2.2.2.2 (gOrd b.bids 0) (gOrd_zero_mem _ hbne)
      (gOrd b.asks 0) (gOrd_zero_mem _ hane)

def c2bid : Order :=
  { id := "b1", side := Side.buy, type := OType.limit, price := some 90,
    quantity := 2, peerId := none, timestamp := 3, status := Status.open_ }

def c2ask : Order :=
  { id := "a1", side := Side.sell, type := OType.limit, price := some 100,
    quantity := 1, peerId := none, timestamp := 1, status := Status.open_ }

def c2book : Book :=
  { pair := "P", pricePrecision := 2, quantityPrecision := 8,
    bids := [c2bid], asks := [c2ask], trades := [] }

theorem claim_C2_witness :
    WF c2book ∧
      pv (gOrd (cancelOrder "zz" c2book).2.1.bids 0).price <
        pv (gOrd (cancelOrder "zz" c2book).2.1.asks 0).price :=
  ⟨by unfold WF uncrossed; with_unfolding_all decide,
    (claim_C2 c2book (by unfold WF uncrossed; with_unfolding_all decide)).2.1 "zz"
      (by with_unfolding_all decide) (by with_unfolding_all decide)⟩

/-! ## Claim C6: resting orders keep positive quantity and live status -/

/-- The C6 resting-order property of a heap array. -/
def goodResting (l : List Order) : Prop :=
  ∀ x ∈ l, 0 < x.quantity ∧
    (x.status = Status.open_ ∨ x.status = Status.partiallyFilled)

instance (l : List Order) : Decidable (goodResting l) :=
  List.decidableBAll _ l

theorem remFin_status (o : RawOrder) (now : ℤ) (b : Book) :
    (remFin o now b).status = Status.open_ ∨
      (remFin o now b).status = Status.partiallyFilled := by
  unfold remFin
  dsimp only
  split
  · exact Or.inr rfl
  · exact Or.inl rfl

/-- Resting-order goodness after a successful `addOrder` on a well-formed
book. -/
theorem addOrder_resting (o : RawOrder) (now : ℤ) (b : Book) (r : AddResult) (b' : Book)
    (evs : List Emit) (hWF : WF b) (h : addOrder o now b = (Except.ok r, b', evs)) :
    goodResting (b'.bids ++ b'.asks) := by
  obtain ⟨hv, hval⟩ := addOrder_ok_elim o now b r b' evs h
  obtain ⟨_, _, _, _, _, hopp, hsame, _, _, _, _⟩ := addOrderValid_spec o now b r b' evs hval
  obtain ⟨hinv, _⟩ := runMatch_main o now b hWF
  obtain ⟨hvb, hva, hgb, hga, hunc⟩ := hWF
  have hoppgood : ∀ x ∈ (runMatch o now b).opp, 0 < x.quantity ∧
      (x.status = Status.open_ ∨ x.status = Status.partiallyFilled) := by
    intro x hx
    refine ⟨(hinv.good x hx).2.1, ?_⟩
    rcases runMatch_opp_track o now b x hx with ⟨y, hy, hc⟩
    rw [(sameCore_fields x y hc).2.2.2.2.2]
    cases hside : (normalise b o now).side
    · rw [hside] at hy
      exact (hga y hy).2.2.2
    · rw [hside] at hy
      exact (hgb y hy).2.2.2
  have hsamegood : ∀ x ∈ sameOf b' (normalise b o now).side, 0 < x.quantity ∧
      (x.status = Status.open_ ∨ x.status = Status.partiallyFilled) := by
    have holdg : ∀ x ∈ sameOf b (normalise b o now).side, 0 < x.quantity ∧
        (x.status = Status.open_ ∨ x.status = Status.partiallyFilled) := by
      intro x hx
      cases hside : (normalise b o now).side
      · rw [hside] at hx
        exact ⟨(hgb x hx).2.1, (hgb x hx).2.2.2⟩
      · rw [hside] at hx
        exact ⟨(hga x hx).2.1, (hga x hx).2.2.2⟩
    rcases hsame with heq | ⟨hpos, _, hins⟩
    · rw [heq]
      exact holdg
    · intro x hx
      rw [hins] at hx
      have hmem := (hinsert_perm (sameLtOf (normalise b o now).side)
        (sameOf b (normalise b o now).side) (remFin o now b)).mem_iff.1 hx
      rcases List.mem_cons.1 hmem with rfl | hx2
      · exact ⟨hpos, remFin_status o now b⟩
      · exact holdg x hx2
  intro x hx
  cases hside : (normalise b o now).side with
  | buy =>
    rw [hside] at hopp hsamegood
    rcases List.mem_append.1 hx with hxb | hxa
    · exact hsamegood x hxb
    · refine hoppgood x ?_
      rw [show (runMatch o now b).opp = b'.asks from hopp.symm]
      exact hxa
  | sell =>
    rw [hside] at hopp hsamegood
    rcases List.mem_append.1 hx with hxb | hxa
    · refine hoppgood x ?_
      rw [show (runMatch o now b).opp = b'.bids from hopp.symm]
      exact hxb
    · exact hsamegood x hxa

theorem cancelOrder_resting (idv : String) (b : Book)
    (hgood : goodResting (b.bids ++ b.asks)) :
    goodResting ((cancelOrder idv b).2.1.bids ++ (cancelOrder idv b).2.1.asks) := by
  unfold cancelOrder
  rcases hrb : removeById bidLt idv b.bids with ⟨fob, bids'⟩
  cases fob with
  | some o =>
    dsimp only
    intro x hx
    have hp := removeById_some_perm bidLt idv b.bids o (by rw [hrb])
    rw [hrb] at hp
    rcases List.mem_append.1 hx with hxb | hxa
    · exact hgood x (List.mem_append.2 (Or.inl (hp.mem_iff.1 (List.mem_cons_of_mem _ hxb))))
    · exact hgood x (List.mem_append.2 (Or.inr hxa))
  | none =>
    rcases hra : removeById askLt idv b.asks with ⟨foa, asks'⟩
    cases foa with
    | some o =>
      dsimp only
      intro x hx
      have hp := removeById_some_perm askLt idv b.asks o (by rw [hra])
      rw [hra] at hp
      rcases List.mem_append.1 hx with hxb | hxa
      · exact hgood x (List.mem_append.2 (Or.inl hxb))
      · exact hgood x (List.mem_append.2 (Or.inr (hp.mem_iff.1 (List.mem_cons_of_mem _ hxa))))
    | none =>
      dsimp only
      exact hgood

/-- **C6.** Starting from a well-formed book, after each public operation —
a successful `addOrder`, any `cancelOrder`, and a successful `loadSnapshot`
of the book's own snapshot — every order resting in either heap has
strictly positive quantity and status `Open` or `PartiallyFilled`. -/
theorem claim_C6 (b : Book) (hWF : WF b) :
    (∀ o now r b' evs, addOrder o now b = (Except.ok r, b', evs) →
      goodResting (b'.bids ++ b'.asks)) ∧
    (∀ idv, goodResting ((cancelOrder idv b).2.1.bids ++ (cancelOrder idv b).2.1.asks)) ∧
    (∀ now b₂ b', b₂.pair = b.pair →
      loadSnapshot (getSnapshot now b) b₂ = Except.ok b' →
      goodResting (b'.bids ++ b'.asks)) := by
  have hgood : goodResting (b.bids ++ b.asks) := by
    intro x hx
    rcases List.mem_append.1 hx with hxb | hxa
    · exact ⟨(hWF.2.2.1 x hxb).2.1, (hWF.2.2.1 x hxb).2.2.2⟩
    · exact ⟨(hWF.2.2.2.1 x hxa).2.1, (hWF.2.2.2.1 x hxa).2.2.2⟩
  refine ⟨?_, ?_, ?_⟩
  · intro o now r b' evs h
    exact addOrder_resting o now b r b' evs hWF h
  · intro idv
    exact cancelOrder_resting idv b hgood
  · intro now b₂ b' hpair hload
    unfold loadSnapshot at hload
    rw [if_neg (by
      show ¬ (getSnapshot now b).pair ≠ b₂.pair
      intro hc
      exact hc hpair.symm)] at hload
    have hb' : b' = { b₂ with bids := rebuild bidLt b.bids, asks := rebuild askLt b.asks } :=
      (Except.ok.inj hload).symm
    rw [hb']
    dsimp only
    rw [rebuild_eq bidLt b.bids hWF.1, rebuild_eq askLt b.asks hWF.2.1]
    exact hgood

def c6bid : Order :=
  { id := "b1", side := Side.buy, type := OType.limit, price := some 95,
    quantity := 4, peerId := none, timestamp := 2, status := Status.partiallyFilled }

def c6ask : Order :=
  { id := "a1", side := Side.sell, type := OType.limit, price := some 105,
    quantity := 1, peerId := none, timestamp := 1, status := Status.open_ }

def c6book : Book :=
  { pair := "P", pricePrecision := 2, quantityPrecision := 8,
    bids := [c6bid], asks := [c6ask], trades := [] }

theorem claim_C6_witness :
    WF c6book ∧
      goodResting ((cancelOrder "a1" c6book).2.1.bids ++ (cancelOrder "a1" c6book).2.1.asks) :=
  ⟨by unfold WF uncrossed; with_unfolding_all decide,
    (claim_C6 c6book (by unfold WF uncrossed; with_unfolding_all decide)).2.1 "a1"⟩

/-! ## Claim C5: price-time (FIFO) priority -/

/-- Every trade in `tl` whose resting order is `b` is preceded by a trade
whose resting order is `a`. -/
def fifoAt (s : Side) (a b : String) (tl : List Trade) : Prop :=
  ∀ j, j < tl.length → restingIdOf s (tl.getD j default) = b →
    ∃ i, i < j ∧ restingIdOf s (tl.getD i default) = a

theorem fifoAt_cons (s : Side) (a b : String) (t : Trade) (tl : List Trade)
    (hne : restingIdOf s t ≠ b) (h : fifoAt s a b tl) : fifoAt s a b (t :: tl) := by
  intro j hj hb
  cases j with
  | zero => exact absurd hb hne
  | succ k =>
    have hj' : k < tl.length := by simpa using hj
    rcases h k hj' hb with ⟨i, hik, hia⟩
    exact ⟨i + 1, by omega, hia⟩

theorem fifoAt_cons_hit (s : Side) (a b : String) (t : Trade) (tl : List Trade)
    (hta : restingIdOf s t = a) (hne : a ≠ b) : fifoAt s a b (t :: tl) := by
  intro j hj hb
  cases j with
  | zero =>
    have hab : a = b := by rw [← hta]; exact hb
    exact absurd hab hne
  | succ k => exact ⟨0, Nat.succ_pos k, hta⟩

theorem matchStep_trades (lt : Order → Order → Bool) (pair : String) (qPrec : ℕ)
    (now : ℤ) (oldLog : List Trade) (st : MSt) :
    (matchStep lt pair qPrec now oldLog st).trades =
      st.trades ++ [mkTrade pair now st.rem (gOrd st.opp 0)
        (rnd (min st.rem.quantity (gOrd st.opp 0).quantity) qPrec)] := by
  unfold matchStep
  by_cases hz : rnd ((gOrd st.opp 0).quantity -
      rnd (min st.rem.quantity (gOrd st.opp 0).quantity) qPrec) qPrec = 0
  · rw [if_pos hz]
  · rw [if_neg hz]

theorem map_tail_id (l : List Order) :
    l.tail.map (fun x : Order => x.id) = (l.map (fun x : Order => x.id)).tail := by
  cases l <;> rfl

theorem set_zero_ne_nil (l : List Order) (v : Order) (h : l ≠ []) : l.set 0 v ≠ [] := by
  cases l with
  | nil => exact absurd rfl h
  | cons a t => simp [List.set]

/-- One matching iteration either drops exactly the root's id from the heap's
id multiset or leaves the id list unchanged. -/
theorem matchStep_ids (lt : Order → Order → Bool) (pair : String) (qPrec : ℕ)
    (now : ℤ) (oldLog : List Trade) (st : MSt) (hop : st.opp ≠ []) :
    ((matchStep lt pair qPrec now oldLog st).opp.map (fun x => x.id)) ~
        ((st.opp.map (fun x => x.id)).tail) ∨
      (matchStep lt pair qPrec now oldLog st).opp.map (fun x => x.id) =
        st.opp.map (fun x => x.id) := by
  unfold matchStep
  by_cases hz : rnd ((gOrd st.opp 0).quantity -
      rnd (min st.rem.quantity (gOrd st.opp 0).quantity) qPrec) qPrec = 0
  · rw [if_pos hz]
    left
    dsimp only
    have hsetne := set_zero_ne_nil st.opp ({ gOrd st.opp 0 with
      quantity := rnd ((gOrd st.opp 0).quantity -
        rnd (min st.rem.quantity (gOrd st.opp 0).quantity) qPrec) qPrec }) hop
    have hperm := (extractTop_perm lt _ hsetne).map (fun x : Order => x.id)
    refine hperm.trans ?_
    rw [tail_set_zero, map_tail_id]
  · rw [if_neg hz]
    right
    dsimp only
    rw [updateQuantity_peek st.opp _ hop]
    cases hc : st.opp with
    | nil => exact absurd hc hop
    | cons a t => rfl

/-- Resting orders other than the current root survive a matching iteration
untouched. -/
theorem matchStep_mem_keep (lt : Order → Order → Bool) (pair : String) (qPrec : ℕ)
    (now : ℤ) (oldLog : List Trade) (st : MSt) (x : Order) (hop : st.opp ≠ [])
    (hx : x ∈ st.opp) (hne : x.id ≠ (gOrd st.opp 0).id) :
    x ∈ (matchStep lt pair qPrec now oldLog st).opp := by
  have hxt : x ∈ st.opp.tail := by
    cases hc : st.opp with
    | nil => exact absurd hc hop
    | cons a t =>
      rw [hc] at hx hne
      rcases List.mem_cons.1 hx with rfl | hm
      · exact absurd (show x.id = (gOrd (x :: t) 0).id by rw [gOrd_cons_zero]) hne
      · exact hm
  unfold matchStep
  by_cases hz : rnd ((gOrd st.opp 0).quantity -
      rnd (min st.rem.quantity (gOrd st.opp 0).quantity) qPrec) qPrec = 0
  · rw [if_pos hz]
    dsimp only
    have hsetne := set_zero_ne_nil st.opp ({ gOrd st.opp 0 with
      quantity := rnd ((gOrd st.opp 0).quantity -
        rnd (min st.rem.quantity (gOrd st.opp 0).quantity) qPrec) qPrec }) hop
    apply (extractTop_perm lt _ hsetne).mem_iff.2
    rw [tail_set_zero]
    exact hxt
  · rw [if_neg hz]
    dsimp only
    rw [updateQuantity_peek st.opp _ hop]
    cases hc : st.opp with
    | nil => exact absurd hc hop
    | cons a t =>
      rw [hc] at hxt
      rw [set_zero_cons]
      exact List.mem_cons_of_mem _ hxt

/-- FIFO inside the matching loop: while two resting orders `o1`, `o2` with
`lt o1 o2` both sit in the opposing heap (with globally distinct ids), any
trade consuming `o2` is preceded, within the trades this loop run appends, by
a trade consuming `o1`. -/
theorem matchLoop_fifo (lt : Order → Order → Bool) (hops : LtOps lt) (pair : String)
    (qPrec : ℕ) (now : ℤ) (oldLog : List Trade) :
    ∀ fuel st o1 o2 tl, MatchInv lt qPrec st →
      (st.opp.map (fun x => x.id)).Nodup →
      o1 ∈ st.opp → o2 ∈ st.opp → o1.id ≠ o2.id → lt o1 o2 = true →
      (matchLoop lt pair qPrec now oldLog fuel st).trades = st.trades ++ tl →
      fifoAt st.rem.side o1.id o2.id tl := by
  intro fuel
  induction fuel with
  | zero =>
    intro st o1 o2 tl _ _ _ _ _ _ heq
    have hlen := congrArg List.length (show st.trades = st.trades ++ tl from heq)
    rw [List.length_append] at hlen
    have htl : tl = [] := List.eq_nil_of_length_eq_zero (by omega)
    intro j hj hb
    rw [htl] at hj
    simp at hj
  | succ n ih =>
    intro st o1 o2 tl hinv hnd h1 h2 hneq hlt heq
    by_cases hg : (matchCond st && priceOK st.rem (gOrd st.opp 0)) = true
    · have hcond : matchCond st = true := (Bool.and_eq_true_iff.1 hg).1
      obtain ⟨hr0, hop⟩ := matchCond_true st hcond
      have hstep : matchLoop lt pair qPrec now oldLog (n + 1) st =
          matchLoop lt pair qPrec now oldLog n (matchStep lt pair qPrec now oldLog st) := by
        rw [matchLoop, if_pos hg]
      rw [hstep] at heq
      rcases (matchLoop_trades_evs lt pair qPrec now oldLog n
        (matchStep lt pair qPrec now oldLog st)).1 with ⟨tl', htl'⟩
      rw [htl', matchStep_trades lt pair qPrec now oldLog st, List.append_assoc] at heq
      have htl : tl = [mkTrade pair now st.rem (gOrd st.opp 0)
          (rnd (min st.rem.quantity (gOrd st.opp 0).quantity) qPrec)] ++ tl' :=
        (List.append_cancel_left heq).symm
      have htr_id : restingIdOf st.rem.side (mkTrade pair now st.rem (gOrd st.opp 0)
          (rnd (min st.rem.quantity (gOrd st.opp 0).quantity) qPrec)) =
          (gOrd st.opp 0).id :=
        (mkTrade_resting pair now st.rem (gOrd st.opp 0)
          (rnd (min st.rem.quantity (gOrd st.opp 0).quantity) qPrec)).1
      obtain ⟨hinv', _⟩ := matchStep_main lt hops pair qPrec now oldLog st hinv hcond
      have hroot : ∀ x ∈ st.opp, lt x (gOrd st.opp 0) = false :=
        valid_root_min lt hops.asymm somePrice hops.weak st.opp
          (fun y hy => (hinv.good y hy).1) hinv.valid
      by_cases hb2 : (gOrd st.opp 0).id = o2.id
      · have hb2eq : gOrd st.opp 0 = o2 :=
          List.inj_on_of_nodup_map hnd (gOrd_zero_mem st.opp hop) h2 hb2
        have hcontra := hroot o1 h1
        rw [hb2eq, hlt] at hcontra
        simp at hcontra
      · by_cases hb1 : (gOrd st.opp 0).id = o1.id
        · rw [htl]
          refine fifoAt_cons_hit _ _ _ _ _ ?_ hneq
          rw [htr_id, hb1]
        · have hnd' : ((matchStep lt pair qPrec now oldLog st).opp.map
              (fun x => x.id)).Nodup := by
            rcases matchStep_ids lt pair qPrec now oldLog st hop with hperm | heqids
            · refine hperm.nodup_iff.2 ?_
              cases hmap : st.opp.map (fun x => x.id) with
              | nil => simp
              | cons a t =>
                rw [hmap] at hnd
                exact hnd.of_cons
            · rw [heqids]
              exact hnd
          have h1' : o1 ∈ (matchStep lt pair qPrec now oldLog st).opp :=
            matchStep_mem_keep lt pair qPrec now oldLog st o1 hop h1
              (fun hc => hb1 hc.symm)
          have h2' : o2 ∈ (matchStep lt pair qPrec now oldLog st).opp :=
            matchStep_mem_keep lt pair qPrec now oldLog st o2 hop h2
              (fun hc => hb2 hc.symm)
          have hfifo' := ih (matchStep lt pair qPrec now oldLog st) o1 o2 tl'
            hinv' hnd' h1' h2' hneq hlt htl'
          have hsideeq : (matchStep lt pair qPrec now oldLog st).rem.side =
              st.rem.side := by
            rcases matchStep_rem lt pair qPrec now oldLog st with ⟨q, hq⟩
            rw [hq]
            rfl
          rw [hsideeq] at hfifo'
          rw [htl]
          exact fifoAt_cons _ _ _ _ _ (by rw [htr_id]; exact hb2) hfifo'
    · rw [matchLoop_stop lt pair qPrec now oldLog (n + 1) st (by simpa using hg)] at heq
      have hlen := congrArg List.length (show st.trades = st.trades ++ tl from heq)
      rw [List.length_append] at hlen
      have htl : tl = [] := List.eq_nil_of_length_eq_zero (by omega)
      intro j hj hb
      rw [htl] at hj
      simp at hj

/-- **C5.** Matching realizes strict price-time (FIFO) priority: if two
resting orders on the opposing side of a well-formed book (with globally
distinct order ids) carry equal prices and `o1.timestamp < o2.timestamp`,
then within the trades returned by a successful `addOrder` call, every trade
that consumes `o2` is preceded by a trade that consumes `o1`. -/
theorem claim_C5 (b : Book) (o : RawOrder) (now : ℤ) (r : AddResult) (b' : Book)
    (evs : List Emit) (o1 o2 : Order) (hWF : WF b)
    (hnd : ((oppOf b (normalise b o now).side).map (fun x => x.id)).Nodup)
    (h1 : o1 ∈ oppOf b (normalise b o now).side)
    (h2 : o2 ∈ oppOf b (normalise b o now).side)
    (hp : o1.price = o2.price) (ht : o1.timestamp < o2.timestamp)
    (h : addOrder o now b = (Except.ok r, b', evs)) :
    ∀ j, j < r.trades.length →
      restingIdOf (normalise b o now).side (r.trades.getD j default) = o2.id →
      ∃ i, i < j ∧
        restingIdOf (normalise b o now).side (r.trades.getD i default) = o1.id := by
  obtain ⟨hv, hval⟩ := addOrder_ok_elim o now b r b' evs h
  have htr : r.trades = (runMatch o now b).trades :=
    (addOrderValid_spec o now b r b' evs hval).1
  obtain ⟨hvb, hva, hgb, hga, hunc⟩ := hWF
  have h0 : MatchInv (oppLtOf (normalise b o now).side) b.quantityPrecision
      { rem := normalise b o now, opp := oppOf b (normalise b o now).side,
        trades := [], evs := [] } := by
    refine ⟨?_, ?_, ?_⟩
    · cases hside : (normalise b o now).side
      · exact hva
      · exact hvb
    · cases hside : (normalise b o now).side
      · intro x hx
        obtain ⟨a1, a2, a3, _⟩ := hga x hx
        exact ⟨a1, a2, a3⟩
      · intro x hx
        obtain ⟨a1, a2, a3, _⟩ := hgb x hx
        exact ⟨a1, a2, a3⟩
    · exact isTick_rnd _ _
  have hneq : o1.id ≠ o2.id := by
    intro hc
    have heq12 : o1 = o2 := List.inj_on_of_nodup_map hnd h1 h2 hc
    rw [heq12] at ht
    exact lt_irrefl _ ht
  have hlt : oppLtOf (normalise b o now).side o1 o2 = true := by
    cases (normalise b o now).side
    · show askLt o1 o2 = true
      unfold askLt
      rw [if_pos hp]
      simpa using ht
    · show bidLt o1 o2 = true
      unfold bidLt
      rw [if_pos hp]
      simpa using ht
  rcases (matchLoop_trades_evs (oppLtOf (normalise b o now).side) b.pair
      b.quantityPrecision now b.trades ((oppOf b (normalise b o now).side).length + 1)
      { rem := normalise b o now, opp := oppOf b (normalise b o now).side,
        trades := [], evs := [] }).1 with ⟨tl, htl⟩
  have hfifo := matchLoop_fifo (oppLtOf (normalise b o now).side)
    (oppLtOf_ops (normalise b o now).side) b.pair b.quantityPrecision now b.trades
    ((oppOf b (normalise b o now).side).length + 1)
    { rem := normalise b o now, opp := oppOf b (normalise b o now).side,
      trades := [], evs := [] } o1 o2 tl h0 hnd h1 h2 hneq hlt htl
  have htr2 : r.trades = tl := by
    rw [htr]
    show (matchLoop (oppLtOf (normalise b o now).side) b.pair b.quantityPrecision now
      b.trades ((oppOf b (normalise b o now).side).length + 1)
      { rem := normalise b o now, opp := oppOf b (normalise b o now).side,
        trades := [], evs := [] }).trades = tl
    rw [htl]
    rfl
  rw [htr2]
  intro j hj hb
  exact hfifo j hj hb

def c5ask1 : Order :=
  { id := "a1", side := Side.sell, type := OType.limit, price := some 100,
    quantity := 1, peerId := none, timestamp := 1, status := Status.open_ }

def c5ask2 : Order :=
  { id := "a2", side := Side.sell, type := OType.limit, price := some 100,
    quantity := 3, peerId := none, timestamp := 2, status := Status.open_ }

def c5book : Book :=
  { pair := "P", pricePrecision := 2, quantityPrecision := 8,
    bids := [], asks := [c5ask1, c5ask2], trades := [] }

def c5raw : RawOrder :=
  { id := some "t1", side := RawSide.buy, type := RawType.limit, price := some 100,
    quantity := some 2, peerId := none, timestamp := some 10, remote := false }

def c5t1 : Trade :=
  { id := "t1_a1_10", pair := "P", price := some 100, quantity := 1,
    buyOrderId := "t1", sellOrderId := "a1", buyPeerId := none, sellPeerId := none,
    timestamp := 10 }

def c5t2 : Trade :=
  { id := "t1_a2_10", pair := "P", price := some 100, quantity := 1,
    buyOrderId := "t1", sellOrderId := "a2", buyPeerId := none, sellPeerId := none,
    timestamp := 10 }

def c5r : AddResult := AddResult.mk [c5t1, c5t2] none Status.filled

def c5b2 : Book :=
  { pair := "P", pricePrecision := 2, quantityPrecision := 8,
    bids := [], asks := [{ c5ask2 with quantity := 2 }], trades := [c5t1, c5t2] }

def c5evs : List Emit :=
  [Emit.orderRemoved { c5ask1 with quantity := 0 } [],
    Emit.trade c5t1 [c5t1, c5t2], Emit.trade c5t2 [c5t1, c5t2]]

theorem claim_C5_witness :
    ∃ i, i < 1 ∧ restingIdOf (normalise c5book c5raw 10).side
        (c5r.trades.getD i default) = c5ask1.id :=
  claim_C5 c5book c5raw 10 c5r c5b2 c5evs c5ask1 c5ask2
    (by unfold WF uncrossed; with_unfolding_all decide)
    (by with_unfolding_all decide)
    (by with_unfolding_all decide)
    (by with_unfolding_all decide)
    rfl (by decide)
    (by with_unfolding_all decide)
    1 (by with_unfolding_all decide) (by with_unfolding_all decide)

theorem claim_C7_witness :
    ((c1raw.type = RawType.market →
      sameOf c1out.2.1 (normalise c1book c1raw 11).side =
        sameOf c1book (normalise c1book c1raw 11).side) ∧
    ((∀ x ∈ c1book.bids ++ c1book.asks, x.type = OType.limit) →
      ∀ x ∈ c1out.2.1.bids ++ c1out.2.1.asks, x.type = OType.limit)) :=
  claim_C7 c1raw 11 c1book c1r c1out.2.1 c1out.2.2 (by with_unfolding_all decide)

end OB
